import Mathlib

/-! # beansdb: hint files, mapped files and the event dispatch table

A shallow embedding of `src/hint.c` and `src/thread.c` (with the backends
`src/ae_epoll.c` and `src/ae_kqueue.c`) and the properties proved about it.

Conventions of the embedding:

* a byte range is a `List Nat` (one entry per byte), a pointer into it is a
  `Nat` offset;
* the index (`HTree`) is a finite map from keys to items;
* operating-system results (open, fstat, mmap, fopen, fwrite, epoll_ctl) are
  inputs of the modelled functions;
* a loop is modelled with a fuel argument and returns `none` when the fuel
  runs out before the loop condition fails; the theorems show that the fuel
  handed to it by the enclosing function is always enough.
-/

namespace Beansdb

/-! ## Hint records -/

/-- Byte widths of the header fields of `HintRecord`, in the order in which the
header holds them: key length, encoded position, version, content hash (the
order is the one the spec gives for the binary format).  No declaration of
`HintRecord` is among the sources (`hint.c` includes `hint.h`, which is
absent), so the widths are parameters.  Fields are read little-endian and
byte by byte: a bit-field that shares a storage unit with its neighbour is
modelled as the bytes it occupies. -/
structure HintLayout where
  kw : Nat
  pw : Nat
  vw : Nat
  hw : Nat
deriving DecidableEq, Repr

/-- The C expression `sizeof(HintRecord) - NAME_IN_RECORD`: the offset of the
key inside a record, which is the size of the fixed header. -/
def HintLayout.hdr (L : HintLayout) : Nat := L.kw + L.pw + L.vw + L.hw

/-- A concrete layout used to instantiate the theorems: a one-byte key length,
a three-byte position, a four-byte version and a two-byte hash, hence a header
of ten bytes.  These widths are an assumption: no declaration of `HintRecord`
is among the sources, and the spec gives the order of the fields but not their
sizes.  No theorem below depends on this instance except through the explicit
hypotheses it states about the layout. -/
def beansdbLayout : HintLayout := { kw := 1, pw := 3, vw := 4, hw := 2 }

/-- Little-endian value of a run of bytes. -/
def leVal : List Nat → Nat
  | [] => 0
  | b :: bs => b + 256 * leVal bs

/-- The `w` little-endian bytes of `x` (the value is truncated to `w` bytes). -/
def leBytes : Nat → Nat → List Nat
  | 0, _ => []
  | w + 1, x => (x % 256) :: leBytes w (x / 256)

/-- Two's complement reading of a `w`-byte unsigned value. -/
def toSigned (w : Nat) (u : Nat) : Int :=
  if 2 * u < 256 ^ w then (u : Int) else (u : Int) - (256 ^ w : Nat)

/-- Two's complement representation of `v` on `w` bytes. -/
def ofSigned (w : Nat) (v : Int) : Nat := (v % ((256 ^ w : Nat) : Int)).toNat

/-- The bytes `buf[off .. off+len)`; bytes past the end of `buf` are missing. -/
def readBytes (buf : List Nat) (off len : Nat) : List Nat := (buf.drop off).take len

/-- The offsets `off, off+1, ..., off+len-1` touched by reading `len` bytes at `off`. -/
def span (off len : Nat) : List Nat := List.range' off len

/-- A hint record as a value: the key bytes, the stored position (the data
file offset without its low byte), the version, the content hash, and the
terminator byte that follows the key on disk. -/
structure HintRec where
  key : List Nat
  pos : Nat
  version : Int
  hash : Nat
  term : Nat
deriving DecidableEq, Repr

/-- The field values of the record fit the widths of the layout. -/
def HintRec.Fits (L : HintLayout) (r : HintRec) : Prop :=
  r.key.length < 256 ^ L.kw ∧ r.pos < 256 ^ L.pw ∧
  (-(256 ^ L.vw : Nat) ≤ 2 * r.version ∧ 2 * r.version < (256 ^ L.vw : Nat)) ∧
  r.hash < 256 ^ L.hw

instance (L : HintLayout) (r : HintRec) : Decidable (r.Fits L) := by
  unfold HintRec.Fits; infer_instance

/-- Number of bytes of a record: `sizeof(HintRecord) - NAME_IN_RECORD + ksize + 1`. -/
def recSize (L : HintLayout) (r : HintRec) : Nat := L.hdr + r.key.length + 1

/-- The on-disk bytes of one record: header fields, key, terminator. -/
def encodeRecord (L : HintLayout) (r : HintRec) : List Nat :=
  leBytes L.kw r.key.length ++ leBytes L.pw r.pos ++ leBytes L.vw (ofSigned L.vw r.version)
    ++ leBytes L.hw r.hash ++ r.key ++ [r.term]

/-- A concatenation of complete records. -/
def encodeAll (L : HintLayout) : List HintRec → List Nat
  | [] => []
  | r :: rs => encodeRecord L r ++ encodeAll L rs

/-! ## The index collaborator -/

/-- An index entry: position, content hash, version. -/
structure Item where
  pos : Nat
  hash : Nat
  ver : Int
deriving DecidableEq, Repr

/-- Modelled from the spec: the in-memory key index `HTree`, whose code is not
among the sources, as a map from a key to its current (position, hash,
version). -/
abbrev HTree := List Nat → Option Item

/-- Modelled from the spec: `ht_add2`, not defined in the sources, is index
upsert-by-key. -/
def ht_add2 (tree : HTree) (key : List Nat) (pos hash : Nat) (ver : Int) : HTree :=
  fun k => if k = key then some { pos := pos, hash := hash, ver := ver } else tree k

/-- Modelled from the spec: `ht_remove2`, not defined in the sources, is index
tombstone-by-key. -/
def ht_remove2 (tree : HTree) (key : List Nat) : HTree :=
  fun k => if k = key then none else tree k

/-- Modelled from the spec: `ht_get2`, not defined in the sources, is index
lookup-by-key. -/
def ht_get2 (tree : HTree) (key : List Nat) : Option Item := tree key

/-- A call made to the index by the scanner. -/
inductive IndexCall where
  | add (key : List Nat) (pos hash : Nat) (ver : Int)
  | remove (key : List Nat)
deriving DecidableEq, Repr

/-- Effect of one recorded call on the index. -/
def IndexCall.apply (tree : HTree) : IndexCall → HTree
  | .add key pos hash ver => ht_add2 tree key pos hash ver
  | .remove key => ht_remove2 tree key

/-! ## The scanner (`scanHintFile`, `count_deleted_record`) -/

/-- The value `(r->pos << 8) | (bucket & 0xff)` stored into a `uint32_t`. -/
def scanPos (rpos : Nat) (bucket : Int) : Nat :=
  ((rpos <<< 8) ||| (bucket % 256).toNat) % 2 ^ 32

/-- The value `(r->pos << 8) | bucket` as it is compared with the `uint32_t`
position of an index item (the usual arithmetic conversions take it modulo
`2^32`). -/
def countPos (rpos : Nat) (bucket : Int) : Nat :=
  ((rpos <<< 8) ||| (bucket % 4294967296).toNat) % 2 ^ 32

/-- What a run of the loop of `scanHintFile` leaves behind: the index, the
calls made to it, the offsets of the bytes of the hint range that were read,
and the number printed by the "unexpected end" message when the loop stopped
on a truncated record. -/
structure ScanState where
  tree : HTree
  calls : List IndexCall
  reads : List Nat
  truncated : Option Nat

/-- The `while (p < end)` loop of `scanHintFile` over the byte range `buf`
(`end` is `buf.length`), started at offset `p`. -/
def scanLoop (L : HintLayout) (bucket : Int) (buf : List Nat) :
    Nat → Nat → ScanState → Option ScanState
  | 0, p, s => if p < buf.length then none else some s
  | fuel + 1, p, s =>
    if p < buf.length then
      -- `r->ksize` is read to advance `p`, before `p > end` is tested
      let ksize := leVal (readBytes buf p L.kw)
      let s1 := { s with reads := s.reads ++ span p L.kw }
      let p' := p + (L.hdr + ksize + 1)
      if p' > buf.length then
        some { s1 with truncated := some (p' - buf.length) }
      else
        let rpos := leVal (readBytes buf (p + L.kw) L.pw)
        let version := toSigned L.vw (leVal (readBytes buf (p + L.kw + L.pw) L.vw))
        let hash := leVal (readBytes buf (p + L.kw + L.pw + L.vw) L.hw)
        let key := readBytes buf (p + L.hdr) ksize
        let pos := scanPos rpos bucket
        let rd := s1.reads ++ span (p + L.kw) L.pw ++ span (p + L.kw + L.pw) L.vw
          ++ span (p + L.kw + L.pw + L.vw) L.hw ++ span (p + L.hdr) ksize
        if version > 0 then
          scanLoop L bucket buf fuel p'
            { s1 with tree := ht_add2 s1.tree key pos hash version,
                      calls := s1.calls ++ [IndexCall.add key pos hash version],
                      reads := rd }
        else
          scanLoop L bucket buf fuel p'
            { s1 with tree := ht_remove2 s1.tree key,
                      calls := s1.calls ++ [IndexCall.remove key],
                      reads := rd }
    else some s

/-- The function `scanHintFile(tree, bucket, path, new_path)`.  The argument
`hint` is what `open_hint(path, new_path)` returned: `none` for `NULL`, else
the byte range `hint->buf[0 .. hint->size)`.  Every pass of the loop advances
`p` by at least one byte, so `buf.length` passes are given as fuel. -/
def scanHintFile (L : HintLayout) (tree : HTree) (bucket : Int) (hint : Option (List Nat)) :
    Option ScanState :=
  match hint with
  | none => some { tree := tree, calls := [], reads := [], truncated := none }
  | some buf =>
    scanLoop L bucket buf buf.length 0 { tree := tree, calls := [], reads := [], truncated := none }

/-- What a run of the loop of `count_deleted_record` leaves behind: `*total`,
`deleted`, the offsets read, the "unexpected end" number, and the index. -/
structure CountState where
  tree : HTree
  total : Nat
  deleted : Nat
  reads : List Nat
  truncated : Option Nat

/-- The test `it == NULL || it->pos != ((r->pos << 8) | bucket) || it->ver <= 0`. -/
def isDeleted (it : Option Item) (rpos : Nat) (bucket : Int) : Bool :=
  match it with
  | none => true
  | some i => decide (i.pos ≠ countPos rpos bucket) || decide (i.ver ≤ 0)

/-- The `while (p < end)` loop of `count_deleted_record`. -/
def countLoop (L : HintLayout) (bucket : Int) (buf : List Nat) :
    Nat → Nat → CountState → Option CountState
  | 0, p, s => if p < buf.length then none else some s
  | fuel + 1, p, s =>
    if p < buf.length then
      let ksize := leVal (readBytes buf p L.kw)
      let s1 := { s with reads := s.reads ++ span p L.kw }
      let p' := p + (L.hdr + ksize + 1)
      if p' > buf.length then
        some { s1 with truncated := some (p' - buf.length) }
      else
        let rpos := leVal (readBytes buf (p + L.kw) L.pw)
        let key := readBytes buf (p + L.hdr) ksize
        let it := ht_get2 s1.tree key
        let rd := s1.reads ++ span (p + L.hdr) ksize ++ span (p + L.kw) L.pw
        countLoop L bucket buf fuel p'
          { s1 with total := s1.total + 1,
                    deleted := if isDeleted it rpos bucket then s1.deleted + 1 else s1.deleted,
                    reads := rd }
    else some s

/-- The function `count_deleted_record(tree, bucket, path, total)`; `hint` is
the result of `open_hint(path, NULL)`.  The returned state holds the return
value in `deleted` and `*total` in `total`. -/
def count_deleted_record (L : HintLayout) (tree : HTree) (bucket : Int)
    (hint : Option (List Nat)) : Option CountState :=
  match hint with
  | none => some { tree := tree, total := 0, deleted := 0, reads := [], truncated := none }
  | some buf =>
    countLoop L bucket buf buf.length 0
      { tree := tree, total := 0, deleted := 0, reads := [], truncated := none }

/-! ## Specification-side definitions for the scanner -/

/-- The call `scanHintFile` makes to the index for a record: an upsert of the
reconstructed position for a live record, a removal for a tombstone. -/
def recordCall (bucket : Int) (r : HintRec) : IndexCall :=
  if r.version > 0 then IndexCall.add r.key (scanPos r.pos bucket) r.hash r.version
  else IndexCall.remove r.key

/-- The index after a list of calls, applied in order. -/
def applyCalls (tree : HTree) (cs : List IndexCall) : HTree := cs.foldl IndexCall.apply tree

/-- The records that lie wholly inside the first `t` bytes of their encoding. -/
def wholeRecords (L : HintLayout) : List HintRec → Nat → List HintRec
  | [], _ => []
  | r :: rs, t => if recSize L r ≤ t then r :: wholeRecords L rs (t - recSize L r) else []

/-- The last record of the list that carries the key `k`. -/
def lastRecord (rs : List HintRec) (k : List Nat) : Option HintRec :=
  (rs.filter (fun r => decide (r.key = k))).getLast?

/-- A record counts as deleted or superseded: the index has no entry for its
key, or the entry's position differs from `(stored pos << 8) | bucket`, or the
entry's version is not positive. -/
def superseded (tree : HTree) (bucket : Nat) (r : HintRec) : Bool :=
  match tree r.key with
  | none => true
  | some it => decide (it.pos ≠ ((r.pos <<< 8) ||| bucket)) || decide (it.ver ≤ 0)

/-! ## Mapped files (`open_mfile`, `close_mfile`) -/

/-- The constant `MAX_MMAP_SIZE = 1<<12`, in megabytes. -/
def MAX_MMAP_SIZE : Int := 4096

/-- How a modelled call ends: it returns a value, it never returns (the
waiting loop of `open_mfile` in a sequential run), or it ends the process
(`exit(1)`). -/
inductive Outcome (α : Type) where
  | ret (a : α)
  | blocked
  | exited
deriving DecidableEq, Repr

/-- What the operating system answers to `open_mfile` for one path:
whether `open` succeeds, the `st_size` reported by `fstat` (`none` when
`fstat` returns -1), and whether `mmap` succeeds. -/
structure OsFile where
  openOk : Bool
  st_size : Option Nat
  mmapOk : Bool
deriving DecidableEq, Repr

/-- The fields of `MFile` that the code uses: `size`, and whether `addr` is a
mapping (`addr` is `NULL` for an empty file). -/
structure MFile where
  size : Nat
  mapped : Bool
deriving DecidableEq, Repr

/-- The function `open_mfile(path)` on the counter `curr_mmap_size`.  Returns
how the call ends and the new value of the counter.  The `int` arithmetic is
modelled on `Int` without overflow.  In a sequential run nothing changes the
counter while the loop `while (curr_mmap_size + mb > MAX_MMAP_SIZE && mb > 100)`
sleeps, so a call that enters the loop never leaves it. -/
def open_mfile (curr : Int) (f : OsFile) : Outcome (Option MFile) × Int :=
  if f.openOk = false then (Outcome.ret none, curr)
  else
    match f.st_size with
    | none => (Outcome.ret none, curr)
    | some sz =>
      let mb : Int := ((sz >>> 20 : Nat) : Int)
      if curr + mb > MAX_MMAP_SIZE ∧ mb > 100 then (Outcome.blocked, curr)
      else
        let curr1 := curr + mb
        if sz > 0 then
          if f.mmapOk = false then (Outcome.ret none, curr1 - mb)
          else (Outcome.ret (some { size := sz, mapped := true }), curr1)
        else (Outcome.ret (some { size := sz, mapped := false }), curr1)

/-- The function `close_mfile(f)` on the counter: `curr_mmap_size -= f->size >> 20`. -/
def close_mfile (curr : Int) (f : MFile) : Int := curr - ((f.size >>> 20 : Nat) : Int)

/-- A call of the mapped-file manager: an `open_mfile`, or the `close_mfile`
of the handle at index `i` among those open and not yet closed. -/
inductive MOp where
  | openOp (f : OsFile)
  | closeOp (i : Nat)
deriving DecidableEq, Repr

/-- The counter together with the handles returned and not yet closed. -/
structure MState where
  curr : Int
  live : List MFile
deriving DecidableEq, Repr

/-- One call in a sequential run.  `none` when the call cannot take place or
does not return: an `open_mfile` that waits forever, a `close_mfile` of a
handle that is not open. -/
def MState.step (s : MState) : MOp → Option MState
  | .openOp f =>
    match open_mfile s.curr f with
    | (Outcome.ret (some h), c) => some { curr := c, live := s.live ++ [h] }
    | (Outcome.ret none, c) => some { curr := c, live := s.live }
    | (_, _) => none
  | .closeOp i =>
    match s.live[i]? with
    | some h => some { curr := close_mfile s.curr h, live := s.live.eraseIdx i }
    | none => none

/-- A sequential run of calls. -/
def MState.run (s : MState) : List MOp → Option MState
  | [] => some s
  | op :: ops =>
    match s.step op with
    | some s1 => s1.run ops
    | none => none

/-- Megabytes accounted for a list of handles. -/
def mappedMb (live : List MFile) : Int := (live.map (fun h => ((h.size >>> 20 : Nat) : Int))).sum

/-! ## Hint codec (`write_hint_file`, `open_hint`) -/

/-- A path, as the characters of a C string. -/
abbrev Path := List Char

/-- A file system: the content of the file at each path, if there is one. -/
abbrev FS := Path → Option (List Nat)

/-- The file system with the entry of `p` replaced. -/
def FS.set (fs : FS) (p : Path) (v : Option (List Nat)) : FS :=
  fun q => if q = p then v else fs q

/-- The compression collaborator, whose code is not among the sources
(`hint.c` includes `quicklz.h`): the bytes `qlz_compress`
produces (its return value is their number), the bytes `qlz_decompress`
produces (likewise), and `qlz_size_decompressed`. -/
structure Qlz where
  compress : List Nat → List Nat
  decompress : List Nat → List Nat
  size_decompressed : List Nat → Nat

/-- The collaborator is lossless: decompressing a compressed buffer gives the
buffer back, and the declared size of a compressed buffer is its length. -/
def Qlz.Lossless (q : Qlz) : Prop :=
  ∀ x, q.decompress (q.compress x) = x ∧ q.size_decompressed (q.compress x) = x.length

/-- The test `strcmp(path + strlen(path) - 4, ".qlz") == 0`: the four
characters that end where the path ends are ".qlz".  For a path of fewer than
four characters they begin before the string, in the characters `before` that
the memory holds just in front of it; for a longer path `before` plays no
part. -/
def hasQlzSuffix (before : List Char) (path : Path) : Bool :=
  decide ((before ++ path).drop ((before ++ path).length - 4) = ['.', 'q', 'l', 'z'])

/-- The name built by `sprintf(tmp, "%s.tmp", path)`. -/
def tmpPath (path : Path) : Path := path ++ ['.', 't', 'm', 'p']

/-- Modelled from the spec: `mgr_unlink`, not defined in the sources, is the
durable-file-unlink collaborator: the file is gone. -/
def mgr_unlink (fs : FS) (path : Path) : FS := fs.set path none

/-- Modelled from the spec: `mgr_rename`, not defined in the sources, is the
durable-file-replace collaborator: the temporary file is renamed into place. -/
def mgr_rename (fs : FS) (tmp path : Path) : FS := (fs.set path (fs tmp)).set tmp none

/-- A call on files made by `write_hint_file`. -/
inductive FsCall where
  | fopen (p : Path)
  | fwrite (p : Path) (requested written : Nat)
  | fclose (p : Path) (flushed : Bool)
  | unlink (p : Path)
  | rename (a b : Path)
deriving DecidableEq, Repr

/-- What the surroundings answer to `write_hint_file`: whether
`fopen(tmp, "wb")` succeeds, how many bytes `fwrite` is able to take (it writes
into the buffer of the stream), how many bytes have reached the file when
`fclose` returns (the flush can fail), and the characters that the memory
holds just before the path string. -/
structure WriteEnv where
  fopenOk : Bool
  canWrite : Nat
  onDisk : Nat
  pathBefore : List Char
deriving DecidableEq, Repr

/-- The bytes handed to `fwrite`: the compressed buffer when the suffix test
answered `compressed`, the buffer itself otherwise. -/
def writeData (q : Qlz) (compressed : Bool) (buf : List Nat) (size : Nat) : List Nat :=
  if compressed then q.compress (buf.take size) else buf.take size

/-- The value of `size` when `fwrite` is called: the number of bytes requested. -/
def bytesRequested (q : Qlz) (compressed : Bool) (buf : List Nat) (size : Nat) : Nat :=
  if compressed then (q.compress (buf.take size)).length else size

/-- The return value `n` of `fwrite(dst, 1, size, hf)`: never more than requested. -/
def bytesWritten (env : WriteEnv) (requested : Nat) : Nat := min env.canWrite requested

/-- The number of bytes in the temporary file when `fclose` has returned: of
the `n` bytes that `fwrite` took, those that reached the file. -/
def bytesStored (env : WriteEnv) (n : Nat) : Nat := min env.onDisk n

/-- The function `write_hint_file(buf, size, path)`: the file system it leaves
and the calls on files it made, in order.  The result of `fclose` is recorded
in the call; the code does not look at it. -/
def write_hint_file (q : Qlz) (env : WriteEnv) (fs : FS) (buf : List Nat) (size : Nat)
    (path : Path) : FS × List FsCall :=
  let compressed := hasQlzSuffix env.pathBefore path
  let dst := writeData q compressed buf size
  let size1 := bytesRequested q compressed buf size
  let tmp := tmpPath path
  if env.fopenOk = false then (fs, [FsCall.fopen tmp])
  else
    let n := bytesWritten env size1
    let stored := bytesStored env n
    let fs1 := fs.set tmp (some (dst.take stored))
    let flushed := decide (stored = n)
    if n = size1 then
      (mgr_rename (mgr_unlink fs1 path) tmp path,
        [FsCall.fopen tmp, FsCall.fwrite tmp size1 n, FsCall.fclose tmp flushed,
         FsCall.unlink path, FsCall.rename tmp path])
    else
      (fs1, [FsCall.fopen tmp, FsCall.fwrite tmp size1 n, FsCall.fclose tmp flushed])

/-- The write is full: the temporary file was opened, `fwrite` took every
byte requested, and every byte had reached the file when `fclose` returned. -/
def WriteEnv.FullWrite (env : WriteEnv) (requested : Nat) : Prop :=
  env.fopenOk = true ∧ bytesWritten env requested = requested ∧ requested ≤ env.onDisk

instance (env : WriteEnv) (requested : Nat) : Decidable (env.FullWrite requested) := by
  unfold WriteEnv.FullWrite; infer_instance

/-- The fields of `HintFile`: the mapped file, the byte range and its size. -/
structure HintFile where
  f : MFile
  buf : List Nat
  size : Nat
deriving DecidableEq, Repr

/-- The process state that `open_hint` works on. -/
structure Sys where
  fs : FS
  curr_mmap_size : Int

/-- What the surroundings answer to `open_hint` for an existing file: whether
`open`, `fstat` and `mmap` succeed, and the characters that the memory holds
just before the path string. -/
structure OpenEnv where
  openOk : Bool
  fstatOk : Bool
  mmapOk : Bool
  pathBefore : List Char
deriving DecidableEq, Repr

/-- A model file system: a file that exists can be opened, examined with
`fstat` and mapped. -/
def OpenEnv.ModelFs (env : OpenEnv) : Prop :=
  env.openOk = true ∧ env.fstatOk = true ∧ env.mmapOk = true

instance (env : OpenEnv) : Decidable env.ModelFs := by
  unfold OpenEnv.ModelFs; infer_instance

/-- The answers of the operating system for `path` in the file system `fs`:
a missing file cannot be opened, an existing one has the size of its content. -/
def osFileOf (fs : FS) (env : OpenEnv) (path : Path) : OsFile :=
  match fs path with
  | none => { openOk := false, st_size := none, mmapOk := false }
  | some bytes =>
    { openOk := env.openOk,
      st_size := if env.fstatOk then some bytes.length else none,
      mmapOk := env.mmapOk }

/-- The function `open_hint(path, new_path)`; `new_path = none` is `NULL`. -/
def open_hint (q : Qlz) (oenv : OpenEnv) (wenv : WriteEnv) (st : Sys) (path : Path)
    (new_path : Option Path) : Outcome (Option HintFile) × Sys :=
  match open_mfile st.curr_mmap_size (osFileOf st.fs oenv path) with
  | (Outcome.blocked, c) => (Outcome.blocked, { st with curr_mmap_size := c })
  | (Outcome.exited, c) => (Outcome.exited, { st with curr_mmap_size := c })
  | (Outcome.ret none, c) => (Outcome.ret none, { st with curr_mmap_size := c })
  | (Outcome.ret (some f), c) =>
    let mapped : List Nat := (st.fs path).getD []
    let finish (hint : HintFile) : Outcome (Option HintFile) × Sys :=
      match new_path with
      | none => (Outcome.ret (some hint), { st with curr_mmap_size := c })
      | some np =>
        (Outcome.ret (some hint),
          { fs := (write_hint_file q wenv st.fs hint.buf hint.size np).1, curr_mmap_size := c })
    if hasQlzSuffix oenv.pathBefore path ∧ f.size > 0 then
      let size := q.size_decompressed mapped
      let out := q.decompress mapped
      if out.length ≠ size then
        (Outcome.exited, { fs := mgr_unlink st.fs path, curr_mmap_size := c })
      else finish { f := f, buf := out, size := size }
    else finish { f := f, buf := mapped, size := f.size }

/-! ## The connection table (`thread.c`) over the epoll backend (`ae_epoll.c`) -/

/-- Constants that `thread.c` and `ae_epoll.c` use and whose definitions are
not among the sources: the capacity of the table, the two return codes, and
the two bits of an interest mask.  They are parameters. -/
structure AeConfig where
  AE_SETSIZE : Nat
  AE_OK : Int
  AE_ERR : Int
  AE_READABLE : Nat
  AE_WRITABLE : Nat
deriving DecidableEq, Repr

/-- A connection handle: a non-null `conn*`. -/
abbrev Conn := Nat

/-- The values of `errno` that the code looks at, and others. -/
inductive Errno where
  | EEXIST | ENOENT | EBADF | ENOMEM | ENOSPC | EPERM | EINVAL
deriving DecidableEq, Repr

/-- A failure of `epoll_ctl` that does not depend on whether the descriptor is
registered. -/
inductive Fault where
  | ENOMEM | ENOSPC | EPERM | EINVAL
deriving DecidableEq, Repr

/-- The `errno` of a fault. -/
def Fault.errno : Fault → Errno
  | .ENOMEM => Errno.ENOMEM
  | .ENOSPC => Errno.ENOSPC
  | .EPERM => Errno.EPERM
  | .EINVAL => Errno.EINVAL

/-- The operations of `epoll_ctl`. -/
inductive EpollOp where
  | EPOLL_CTL_ADD | EPOLL_CTL_MOD | EPOLL_CTL_DEL
deriving DecidableEq, Repr

/-- The state of `EventLoop loop` and of its Multiplexer: the table
`loop.conns` (`none` is `NULL`; a descriptor is a `Nat`) and, for every
descriptor registered with the epoll instance, the events it is armed with. -/
structure EventLoop where
  conns : Nat → Option Conn
  reg : Nat → Option Nat

/-- The entry `fd` of a map replaced. -/
def setAt {α : Type} (m : Nat → Option α) (fd : Nat) (v : Option α) : Nat → Option α :=
  fun x => if x = fd then v else m x

/-- The bit `EPOLLIN`; the value 1 is the one a comment of `ae_epoll.c` gives. -/
def EPOLLIN : Nat := 1

/-- The bit `EPOLLOUT`; the value 4 is the one a comment of `ae_epoll.c` gives. -/
def EPOLLOUT : Nat := 4

/-- The bit `EPOLLONESHOT`.  Its value is an assumption (a system header
defines it); no theorem depends on it. -/
def EPOLLONESHOT : Nat := 2 ^ 30

/-- The field `ee.events` built by `aeApiAddEvent` and `aeApiUpdateEvent`. -/
def epollEvents (cfg : AeConfig) (mask : Nat) : Nat :=
  (EPOLLONESHOT ||| (if mask &&& cfg.AE_READABLE ≠ 0 then EPOLLIN else 0))
    ||| (if mask &&& cfg.AE_WRITABLE ≠ 0 then EPOLLOUT else 0)

/-- A model of the system call `epoll_ctl` on the set of registered
descriptors: the new registrations and the `errno` of a failure (`none` when
the call returns 0).  The kernel is not part of the sources; the model
assumes that a fault leaves the registrations as they are, that otherwise ADD
of a registered descriptor fails with `EEXIST`, that MOD and DEL of an
unregistered one fail with `ENOENT`, and that the call succeeds in the other
cases. -/
def epoll_ctl (reg : Nat → Option Nat) (op : EpollOp) (fd : Nat) (events : Nat)
    (fault : Option Fault) : (Nat → Option Nat) × Option Errno :=
  match fault with
  | some e => (reg, some e.errno)
  | none =>
    match op with
    | .EPOLL_CTL_ADD =>
      if (reg fd).isSome then (reg, some Errno.EEXIST) else (setAt reg fd (some events), none)
    | .EPOLL_CTL_MOD =>
      if (reg fd).isSome then (setAt reg fd (some events), none) else (reg, some Errno.ENOENT)
    | .EPOLL_CTL_DEL =>
      if (reg fd).isSome then (setAt reg fd none, none) else (reg, some Errno.ENOENT)

/-- The function `aeApiAddEvent`: -1 when `epoll_ctl` fails with an `errno`
other than `EEXIST`, else 0. -/
def aeApiAddEvent (cfg : AeConfig) (reg : Nat → Option Nat) (fd mask : Nat)
    (fault : Option Fault) : Int × (Nat → Option Nat) :=
  match epoll_ctl reg EpollOp.EPOLL_CTL_ADD fd (epollEvents cfg mask) fault with
  | (reg1, some e) => if e ≠ Errno.EEXIST then (-1, reg1) else (0, reg1)
  | (reg1, none) => (0, reg1)

/-- The function `aeApiUpdateEvent`: -1 when `epoll_ctl` fails, else 0. -/
def aeApiUpdateEvent (cfg : AeConfig) (reg : Nat → Option Nat) (fd mask : Nat)
    (fault : Option Fault) : Int × (Nat → Option Nat) :=
  match epoll_ctl reg EpollOp.EPOLL_CTL_MOD fd (epollEvents cfg mask) fault with
  | (reg1, some _) => (-1, reg1)
  | (reg1, none) => (0, reg1)

/-- The function `aeApiDelEvent`: -1 when `epoll_ctl` fails with an `errno`
other than `ENOENT` and `EBADF`, else 0. -/
def aeApiDelEvent (reg : Nat → Option Nat) (fd : Nat) (fault : Option Fault) :
    Int × (Nat → Option Nat) :=
  match epoll_ctl reg EpollOp.EPOLL_CTL_DEL fd 0 fault with
  | (reg1, some e) => if e ≠ Errno.ENOENT ∧ e ≠ Errno.EBADF then (-1, reg1) else (0, reg1)
  | (reg1, none) => (0, reg1)

/-- The function `add_event(fd, mask, c)`.  `none` when
`assert(loop.conns[fd] == NULL)` fails and the process aborts. -/
def add_event (cfg : AeConfig) (loop : EventLoop) (fd mask : Nat) (c : Conn)
    (fault : Option Fault) : Option (Int × EventLoop) :=
  if fd ≥ cfg.AE_SETSIZE then some (cfg.AE_ERR, loop)
  else if (loop.conns fd).isSome then none
  else
    let conns1 := setAt loop.conns fd (some c)
    match aeApiAddEvent cfg loop.reg fd mask fault with
    | (r, reg1) =>
      if r = -1 then some (cfg.AE_ERR, { conns := setAt conns1 fd none, reg := reg1 })
      else some (cfg.AE_OK, { conns := conns1, reg := reg1 })

/-- The function `update_event(fd, mask, c)`.  It does not compare `fd` with
`AE_SETSIZE`; a slot at or above `AE_SETSIZE` is outside the table. -/
def update_event (cfg : AeConfig) (loop : EventLoop) (fd mask : Nat) (c : Conn)
    (fault : Option Fault) : Int × EventLoop :=
  let conns1 := setAt loop.conns fd (some c)
  match aeApiUpdateEvent cfg loop.reg fd mask fault with
  | (r, reg1) =>
    if r = -1 then (cfg.AE_ERR, { conns := setAt conns1 fd none, reg := reg1 })
    else (cfg.AE_OK, { conns := conns1, reg := reg1 })

/-- The function `delete_event(fd)`. -/
def delete_event (cfg : AeConfig) (loop : EventLoop) (fd : Nat) (fault : Option Fault) :
    Int × EventLoop :=
  if fd ≥ cfg.AE_SETSIZE then (-1, loop)
  else
    let conns1 := setAt loop.conns fd none
    match aeApiDelEvent loop.reg fd fault with
    | (r, reg1) =>
      if r = -1 then (-1, { conns := conns1, reg := reg1 })
      else (0, { conns := conns1, reg := reg1 })

/-- The invariant of the connection table: below `AE_SETSIZE`, an entry is
non-empty if and only if the descriptor is registered with the Multiplexer. -/
def TableInv (cfg : AeConfig) (loop : EventLoop) : Prop :=
  ∀ fd, fd < cfg.AE_SETSIZE → ((loop.conns fd).isSome ↔ (loop.reg fd).isSome)

/-- One direction of the invariant: below `AE_SETSIZE`, a non-empty entry
belongs to a registered descriptor. -/
def TableSound (cfg : AeConfig) (loop : EventLoop) : Prop :=
  ∀ fd, fd < cfg.AE_SETSIZE → (loop.conns fd).isSome → (loop.reg fd).isSome

/-- A configuration used to instantiate the theorems: the capacity named in a
comment of `thread.c` (`1024*60`), return codes 0 and -1, mask bits 1 and 2.
The return codes and the mask bits are an assumption: their definitions are
not among the sources. -/
def sampleConfig : AeConfig :=
  { AE_SETSIZE := 61440, AE_OK := 0, AE_ERR := -1, AE_READABLE := 1, AE_WRITABLE := 2 }

/-! ## The kqueue backend (`ae_kqueue.c`) -/

/-- The mark under which the registrations keep the filter `EVFILT_READ` of a
descriptor. -/
def KQ_READ : Nat := 1

/-- The mark under which the registrations keep the filter `EVFILT_WRITE` of a
descriptor. -/
def KQ_WRITE : Nat := 2

/-- A model of the system call `kevent` with one change `EV_ADD | EV_ONESHOT`
for a filter of `fd`: a failed call returns -1 and registers nothing, a
successful one returns 0 and the descriptor is registered with that filter
too.  Under this backend a descriptor is registered when it has a filter. -/
def kevent_add (reg : Nat → Option Nat) (fd filter : Nat) (fails : Bool) :
    Int × (Nat → Option Nat) :=
  if fails then (-1, reg) else (0, setAt reg fd (some ((reg fd).getD 0 ||| filter)))

/-- The function `aeApiAddEvent` of `ae_kqueue.c`: one `kevent` per interest
bit of the mask, -1 as soon as one fails, 0 otherwise; with neither bit in the
mask no `kevent` is made. -/
def Kqueue.aeApiAddEvent (cfg : AeConfig) (reg : Nat → Option Nat) (fd mask : Nat)
    (failRead failWrite : Bool) : Int × (Nat → Option Nat) :=
  let r1 : Int × (Nat → Option Nat) :=
    if mask &&& cfg.AE_READABLE ≠ 0 then kevent_add reg fd KQ_READ failRead else (0, reg)
  if r1.1 = -1 then (-1, r1.2)
  else
    let r2 : Int × (Nat → Option Nat) :=
      if mask &&& cfg.AE_WRITABLE ≠ 0 then kevent_add r1.2 fd KQ_WRITE failWrite else (0, r1.2)
    if r2.1 = -1 then (-1, r2.2) else (0, r2.2)

/-- The function `aeApiUpdateEvent` of `ae_kqueue.c`: it is `aeApiAddEvent`. -/
def Kqueue.aeApiUpdateEvent (cfg : AeConfig) (reg : Nat → Option Nat) (fd mask : Nat)
    (failRead failWrite : Bool) : Int × (Nat → Option Nat) :=
  Kqueue.aeApiAddEvent cfg reg fd mask failRead failWrite

/-- The function `aeApiDelEvent` of `ae_kqueue.c`: one `kevent` with
`EV_DELETE` for the filter `EVFILT_READ | EVFILT_WRITE`, whose result is not
looked at, and the return value 0.  Which filters the system takes that value
to name is fixed by a system header; it is the parameter `named` (marks of the
filters, 0 for none).  The filters named are no longer registered. -/
def Kqueue.aeApiDelEvent (named : Nat) (reg : Nat → Option Nat) (fd : Nat) :
    Int × (Nat → Option Nat) :=
  let old := (reg fd).getD 0
  let left := old - (old &&& named)
  (0, setAt reg fd (if left = 0 then none else some left))

/-- The function `add_event(fd, mask, c)` of `thread.c` compiled with the
kqueue backend.  `none` when the assertion fails. -/
def Kqueue.add_event (cfg : AeConfig) (loop : EventLoop) (fd mask : Nat) (c : Conn)
    (failRead failWrite : Bool) : Option (Int × EventLoop) :=
  if fd ≥ cfg.AE_SETSIZE then some (cfg.AE_ERR, loop)
  else if (loop.conns fd).isSome then none
  else
    let conns1 := setAt loop.conns fd (some c)
    match Kqueue.aeApiAddEvent cfg loop.reg fd mask failRead failWrite with
    | (r, reg1) =>
      if r = -1 then some (cfg.AE_ERR, { conns := setAt conns1 fd none, reg := reg1 })
      else some (cfg.AE_OK, { conns := conns1, reg := reg1 })

/-- The function `update_event(fd, mask, c)` of `thread.c` compiled with the
kqueue backend. -/
def Kqueue.update_event (cfg : AeConfig) (loop : EventLoop) (fd mask : Nat) (c : Conn)
    (failRead failWrite : Bool) : Int × EventLoop :=
  let conns1 := setAt loop.conns fd (some c)
  match Kqueue.aeApiUpdateEvent cfg loop.reg fd mask failRead failWrite with
  | (r, reg1) =>
    if r = -1 then (cfg.AE_ERR, { conns := setAt conns1 fd none, reg := reg1 })
    else (cfg.AE_OK, { conns := conns1, reg := reg1 })

/-- The function `delete_event(fd)` of `thread.c` compiled with the kqueue
backend. -/
def Kqueue.delete_event (cfg : AeConfig) (named : Nat) (loop : EventLoop) (fd : Nat) :
    Int × EventLoop :=
  if fd ≥ cfg.AE_SETSIZE then (-1, loop)
  else
    let conns1 := setAt loop.conns fd none
    match Kqueue.aeApiDelEvent named loop.reg fd with
    | (r, reg1) =>
      if r = -1 then (-1, { conns := conns1, reg := reg1 })
      else (0, { conns := conns1, reg := reg1 })

/-- A call that touches the destination: `mgr_unlink` or `mgr_rename`. -/
def FsCall.replaces : FsCall → Bool
  | .unlink _ => true
  | .rename _ _ => true
  | _ => false

/-- Modelled from the spec: the compressed container carries a
self-describing decompressed-size header; hence the compressed form of a
buffer that is not empty is not empty. -/
def Qlz.NonEmptyOutput (q : Qlz) : Prop := ∀ x, x ≠ [] → q.compress x ≠ []

/-- A lossless collaborator that stores a buffer behind one marker byte. -/
def markerQlz : Qlz where
  compress := fun x => 1 :: x
  decompress := fun c => c.tail
  size_decompressed := fun c => c.length - 1

/-- A loop with no connection and no registered descriptor. -/
def emptyLoop : EventLoop where
  conns := fun _ => none
  reg := fun _ => none

/-! ## Building a hint buffer (`collect_items`) -/

/-- The fields of `Item` that `collect_items` reads: the key (the bytes the
index holds for it, followed in memory by a NUL byte), the position, the
version and the hash.  No declaration of `Item` is among the sources; the
fields are taken from their uses in `hint.c`. -/
structure KeyedItem where
  key : List Nat
  pos : Nat
  ver : Int
  hash : Nat
deriving DecidableEq, Repr

/-- The C function `strlen` on the bytes at a pointer: the number of bytes
before the first NUL. -/
def strlen : List Nat → Nat
  | [] => 0
  | b :: bs => if b = 0 then 0 else strlen bs + 1

/-- The `struct param` of `hint.c`: capacity, bytes used, and the `size`
bytes of the buffer.  The two `int` fields are modelled on `Nat` without
overflow. -/
structure Param where
  size : Nat
  curr : Nat
  buf : List Nat
deriving DecidableEq, Repr

/-- The buffer with `bytes` stored at offset `off`. -/
def writeAt (buf : List Nat) (off : Nat) (bytes : List Nat) : List Nat :=
  buf.take off ++ bytes ++ buf.drop (off + bytes.length)

/-- The call `realloc(buf, size)`, taken to succeed: the old bytes are kept
and the new ones are unspecified (zero in the model). -/
def realloc (buf : List Nat) (size : Nat) : List Nat :=
  (buf ++ List.replicate (size - buf.length) 0).take size

/-- The function `collect_items(it, param)`.  The buffer is doubled at most
once; `none` when the record is then written past the end of the buffer.  The
key length is stored in a field of `L.kw` bytes, and `memcpy` copies
`r->ksize + 1` bytes, where `r->ksize` is the stored value. -/
def collect_items (L : HintLayout) (it : KeyedItem) (p : Param) : Option Param :=
  let ksize := strlen (it.key ++ [0])
  let length := L.hdr + ksize + 1
  let p1 : Param :=
    if p.size - p.curr < length then
      { p with size := p.size * 2, buf := realloc p.buf (p.size * 2) }
    else p
  let stored := leVal (leBytes L.kw ksize)
  let record := leBytes L.kw ksize ++ leBytes L.pw (it.pos >>> 8)
    ++ leBytes L.vw (ofSigned L.vw it.ver) ++ leBytes L.hw it.hash
    ++ (it.key ++ [0]).take (stored + 1)
  if p1.curr + record.length > p1.buf.length then none
  else some { p1 with curr := p1.curr + length, buf := writeAt p1.buf p1.curr record }

/-- The function `collect_items` applied to each item of a list in turn, the
way `build_hint` has the index visited (`ht_visit` is not defined in the
sources). -/
def collectAll (L : HintLayout) : List KeyedItem → Param → Option Param
  | [], p => some p
  | it :: its, p =>
    match collect_items L it p with
    | some p1 => collectAll L its p1
    | none => none

/-- The record that `collect_items` writes for an item: its key, its position
without the low byte, its version and its hash, and a NUL after the key. -/
def itemRecord (it : KeyedItem) : HintRec :=
  { key := it.key, pos := it.pos >>> 8, version := it.ver, hash := it.hash, term := 0 }

/-- The position of an item with its low 8 bits replaced by `b`. -/
def withLowByte (pos b : Nat) : Nat := pos / 256 * 256 + b

/-- The `struct param` that `build_hint` hands to the visit: `1024 * 1024`
bytes from `malloc` (unspecified content, zero in the model), none used. -/
def buildHintParam : Param :=
  { size := 1024 * 1024, curr := 0, buf := List.replicate (1024 * 1024) 0 }

/-! # Theorems -/

/-! ## Scanner: termination and bounds of the reads -/

theorem mem_span {i off len : Nat} : i ∈ span off len ↔ off ≤ i ∧ i < off + len := by
  unfold span
  exact List.mem_range'_1

/-- The loop returns whenever the fuel covers the bytes that remain. -/
theorem scanLoop_total (L : HintLayout) (bucket : Int) (buf : List Nat) :
    ∀ (fuel p : Nat) (s : ScanState), buf.length ≤ p + fuel →
      ∃ s', scanLoop L bucket buf fuel p s = some s' := by
  intro fuel
  induction fuel with
  | zero =>
    intro p s h
    refine ⟨s, ?_⟩
    simp only [scanLoop]
    rw [if_neg (by omega)]
  | succ n ih =>
    intro p s h
    simp only [scanLoop]
    split
    · split
      · exact ⟨_, rfl⟩
      · split
        · exact ih _ _ (by omega)
        · exact ih _ _ (by omega)
    · exact ⟨s, rfl⟩

/-- Every offset logged by the loop lies inside the range, when the key length
is the first byte of a record. -/
theorem scanLoop_reads (L : HintLayout) (hk : L.kw = 1) (bucket : Int) (buf : List Nat) :
    ∀ (fuel p : Nat) (s s' : ScanState), scanLoop L bucket buf fuel p s = some s' →
      (∀ i ∈ s.reads, i < buf.length) → ∀ i ∈ s'.reads, i < buf.length := by
  intro fuel
  induction fuel with
  | zero =>
    intro p s s' h hs
    simp only [scanLoop] at h
    split at h
    · exact absurd h (by simp)
    · cases h; exact hs
  | succ n ih =>
    intro p s s' h hs
    simp only [scanLoop] at h
    split at h
    · rename_i hp
      split at h
      · cases h
        intro i hi
        simp only [List.mem_append, mem_span] at hi
        rcases hi with hi | hi
        · exact hs i hi
        · omega
      · rename_i hle
        have key : ∀ i ∈ s.reads ++ span p L.kw ++ span (p + L.kw) L.pw
            ++ span (p + L.kw + L.pw) L.vw ++ span (p + L.kw + L.pw + L.vw) L.hw
            ++ span (p + L.hdr) (leVal (readBytes buf p L.kw)), i < buf.length := by
          intro i hi
          simp only [List.mem_append, mem_span, HintLayout.hdr] at hi hle
          rcases hi with ((((hi | hi) | hi) | hi) | hi) | hi
          · exact hs i hi
          all_goals omega
        split at h
        · exact ih _ _ _ h key
        · exact ih _ _ _ h key
    · cases h; exact hs

/-! ## Scanner: decoding complete records -/

theorem leBytes_length (w x : Nat) : (leBytes w x).length = w := by
  induction w generalizing x with
  | zero => rfl
  | succ n ih => simp [leBytes, ih]

theorem leVal_leBytes (w x : Nat) : leVal (leBytes w x) = x % 256 ^ w := by
  induction w generalizing x with
  | zero => simp [leBytes, leVal, Nat.mod_one]
  | succ n ih =>
    simp only [leBytes, leVal, ih]
    rw [pow_succ', Nat.mod_mul]

theorem leVal_leBytes_of_lt {w x : Nat} (h : x < 256 ^ w) : leVal (leBytes w x) = x := by
  rw [leVal_leBytes, Nat.mod_eq_of_lt h]

theorem toSigned_ofSigned {w : Nat} {v : Int}
    (h1 : -(256 ^ w : Nat) ≤ 2 * v) (h2 : 2 * v < (256 ^ w : Nat)) :
    toSigned w (leVal (leBytes w (ofSigned w v))) = v := by
  have hM : (0 : Int) < (256 ^ w : Nat) := by positivity
  generalize hMdef : ((256 ^ w : Nat) : Int) = M at h1 h2 hM
  have hlt : ofSigned w v < 256 ^ w := by
    unfold ofSigned
    have := Int.emod_lt_of_pos v hM
    have h0 := Int.emod_nonneg v (ne_of_gt hM)
    rw [hMdef]
    omega
  rw [leVal_leBytes_of_lt hlt]
  unfold toSigned ofSigned
  rw [hMdef]
  by_cases hv : 0 ≤ v
  · have e : v % M = v := Int.emod_eq_of_lt hv (by omega)
    rw [e]
    have : ((v.toNat : Nat) : Int) = v := Int.toNat_of_nonneg hv
    rw [if_pos (by omega)]
    exact this
  · have e : v % M = v + M := by
      have : (v + M) % M = v % M := by simp
      rw [← this]
      exact Int.emod_eq_of_lt (by omega) (by omega)
    rw [e]
    have : (((v + M).toNat : Nat) : Int) = v + M := Int.toNat_of_nonneg (by omega)
    rw [if_neg (by omega)]
    omega

theorem readBytes_mid (xs ys zs : List Nat) :
    readBytes (xs ++ ys ++ zs) xs.length ys.length = ys := by
  unfold readBytes
  simp [List.append_assoc]

theorem readBytes_of_eq (xs ys zs : List Nat) {buf : List Nat} {off len : Nat}
    (h : buf = xs ++ ys ++ zs) (ho : off = xs.length) (hl : len = ys.length) :
    readBytes buf off len = ys := by
  subst h ho hl
  exact readBytes_mid xs ys zs

theorem encodeRecord_length (L : HintLayout) (r : HintRec) :
    (encodeRecord L r).length = recSize L r := by
  simp [encodeRecord, recSize, HintLayout.hdr, leBytes_length]
  omega

/-- The header and key of a complete record decode to its field values. -/
theorem decode_fields (L : HintLayout) (pre rest : List Nat) (r : HintRec) (hr : r.Fits L) :
    let buf := pre ++ encodeRecord L r ++ rest
    leVal (readBytes buf pre.length L.kw) = r.key.length ∧
    leVal (readBytes buf (pre.length + L.kw) L.pw) = r.pos ∧
    toSigned L.vw (leVal (readBytes buf (pre.length + L.kw + L.pw) L.vw)) = r.version ∧
    leVal (readBytes buf (pre.length + L.kw + L.pw + L.vw) L.hw) = r.hash ∧
    readBytes buf (pre.length + L.hdr) r.key.length = r.key := by
  obtain ⟨hk, hp, ⟨hv1, hv2⟩, hh⟩ := hr
  intro buf
  refine ⟨?_, ?_, ?_, ?_, ?_⟩
  · rw [readBytes_of_eq (pre) (leBytes L.kw r.key.length)
      (leBytes L.pw r.pos ++ leBytes L.vw (ofSigned L.vw r.version)
        ++ leBytes L.hw r.hash ++ r.key ++ [r.term] ++ rest)
      (by simp [buf, encodeRecord, List.append_assoc]) rfl (by simp [leBytes_length])]
    exact leVal_leBytes_of_lt hk
  · rw [readBytes_of_eq (pre ++ leBytes L.kw r.key.length) (leBytes L.pw r.pos)
      (leBytes L.vw (ofSigned L.vw r.version)
        ++ leBytes L.hw r.hash ++ r.key ++ [r.term] ++ rest)
      (by simp [buf, encodeRecord, List.append_assoc]) (by simp [leBytes_length])
      (by simp [leBytes_length])]
    exact leVal_leBytes_of_lt hp
  · rw [readBytes_of_eq (pre ++ leBytes L.kw r.key.length ++ leBytes L.pw r.pos)
      (leBytes L.vw (ofSigned L.vw r.version))
      (leBytes L.hw r.hash ++ r.key ++ [r.term] ++ rest)
      (by simp [buf, encodeRecord, List.append_assoc]) (by simp [leBytes_length]; omega)
      (by simp [leBytes_length])]
    exact toSigned_ofSigned hv1 hv2
  · rw [readBytes_of_eq (pre ++ leBytes L.kw r.key.length ++ leBytes L.pw r.pos
        ++ leBytes L.vw (ofSigned L.vw r.version))
      (leBytes L.hw r.hash) (r.key ++ [r.term] ++ rest)
      (by simp [buf, encodeRecord, List.append_assoc]) (by simp [leBytes_length]; omega)
      (by simp [leBytes_length])]
    exact leVal_leBytes_of_lt hh
  · exact readBytes_of_eq (pre ++ leBytes L.kw r.key.length ++ leBytes L.pw r.pos
        ++ leBytes L.vw (ofSigned L.vw r.version) ++ leBytes L.hw r.hash)
      (r.key) ([r.term] ++ rest)
      (by simp [buf, encodeRecord, List.append_assoc])
      (by simp [leBytes_length, HintLayout.hdr]; omega) rfl

/-- One pass of the scan loop over a complete record. -/
theorem scanLoop_step (L : HintLayout) (bucket : Int) (pre rest : List Nat) (r : HintRec)
    (hr : r.Fits L) (fuel : Nat) (s : ScanState) :
    ∃ rd, scanLoop L bucket (pre ++ encodeRecord L r ++ rest) (fuel + 1) pre.length s
      = scanLoop L bucket (pre ++ encodeRecord L r ++ rest) fuel (pre.length + recSize L r)
          { tree := (recordCall bucket r).apply s.tree,
            calls := s.calls ++ [recordCall bucket r],
            reads := rd, truncated := s.truncated } := by
  obtain ⟨h1, h2, h3, h4, h5⟩ := decode_fields L pre rest r hr
  have hlen : (pre ++ encodeRecord L r ++ rest).length
      = pre.length + recSize L r + rest.length := by
    simp [encodeRecord_length]
    omega
  simp only [scanLoop]
  rw [if_pos (by rw [hlen]; unfold recSize; omega)]
  simp only [h1, h2, h3, h4, h5]
  rw [if_neg (by rw [hlen]; unfold recSize; omega)]
  by_cases hv : r.version > 0
  · have e : recordCall bucket r
        = IndexCall.add r.key (scanPos r.pos bucket) r.hash r.version := by
      simp [recordCall, hv]
    rw [if_pos hv, e]
    exact ⟨_, rfl⟩
  · have e : recordCall bucket r = IndexCall.remove r.key := by
      simp [recordCall, hv]
    rw [if_neg hv, e]
    exact ⟨_, rfl⟩

theorem scanLoop_done (L : HintLayout) (bucket : Int) (buf : List Nat) (fuel p : Nat)
    (s : ScanState) (h : buf.length ≤ p) : scanLoop L bucket buf fuel p s = some s := by
  cases fuel with
  | zero => simp only [scanLoop]; rw [if_neg (by omega)]
  | succ n => simp only [scanLoop]; rw [if_neg (by omega)]

/-- The scan loop over a run of complete records makes exactly their calls. -/
theorem scanLoop_records (L : HintLayout) (bucket : Int) :
    ∀ (rs : List HintRec) (pre rest : List Nat) (fuel : Nat) (s : ScanState),
      (∀ r ∈ rs, r.Fits L) →
      ∃ rd, scanLoop L bucket (pre ++ encodeAll L rs ++ rest) (fuel + rs.length) pre.length s
        = scanLoop L bucket (pre ++ encodeAll L rs ++ rest) fuel
            (pre.length + (encodeAll L rs).length)
            { tree := applyCalls s.tree (rs.map (recordCall bucket)),
              calls := s.calls ++ rs.map (recordCall bucket),
              reads := rd, truncated := s.truncated } := by
  intro rs
  induction rs with
  | nil =>
    intro pre rest fuel s _
    exact ⟨s.reads, by simp [encodeAll, applyCalls]⟩
  | cons r rs ih =>
    intro pre rest fuel s hfit
    have hr : r.Fits L := hfit r (List.mem_cons_self _ _)
    have hrs : ∀ x ∈ rs, x.Fits L := fun x hx => hfit x (List.mem_cons_of_mem _ hx)
    have e1 : pre ++ encodeAll L (r :: rs) ++ rest
        = pre ++ encodeRecord L r ++ (encodeAll L rs ++ rest) := by
      simp [encodeAll, List.append_assoc]
    have e2 : pre ++ encodeRecord L r ++ (encodeAll L rs ++ rest)
        = (pre ++ encodeRecord L r) ++ encodeAll L rs ++ rest := by
      simp [List.append_assoc]
    obtain ⟨rd1, h1⟩ := scanLoop_step L bucket pre (encodeAll L rs ++ rest) r hr
      (fuel + rs.length) s
    obtain ⟨rd2, h2⟩ := ih (pre ++ encodeRecord L r) rest fuel
      { tree := (recordCall bucket r).apply s.tree,
        calls := s.calls ++ [recordCall bucket r],
        reads := rd1, truncated := s.truncated } hrs
    refine ⟨rd2, ?_⟩
    rw [e1, List.length_cons, ← Nat.add_assoc, h1, e2]
    have e3 : pre.length + recSize L r = (pre ++ encodeRecord L r).length := by
      simp [encodeRecord_length]
    rw [e3, h2]
    simp [encodeAll, applyCalls, encodeRecord_length, Nat.add_assoc]

theorem length_le_encodeAll (L : HintLayout) (rs : List HintRec) :
    rs.length ≤ (encodeAll L rs).length := by
  induction rs with
  | nil => simp
  | cons r rs ih =>
    simp only [encodeAll, List.length_cons, List.length_append, encodeRecord_length, recSize]
    omega

/-- Scanning a concatenation of complete records returns, having made exactly
the calls of the records, in order. -/
theorem scanHintFile_complete (L : HintLayout) (rs : List HintRec) (hfit : ∀ r ∈ rs, r.Fits L)
    (tree : HTree) (bucket : Int) :
    ∃ rd, scanHintFile L tree bucket (some (encodeAll L rs))
      = some { tree := applyCalls tree (rs.map (recordCall bucket)),
               calls := rs.map (recordCall bucket), reads := rd, truncated := none } := by
  obtain ⟨rd, h⟩ := scanLoop_records L bucket rs [] []
    ((encodeAll L rs).length - rs.length)
    { tree := tree, calls := [], reads := [], truncated := none } hfit
  refine ⟨rd, ?_⟩
  have hl := length_le_encodeAll L rs
  simp only [List.nil_append, List.append_nil, List.length_nil, Nat.zero_add,
    Nat.sub_add_cancel hl] at h
  simp only [scanHintFile]
  rw [h, scanLoop_done _ _ _ _ _ _ (le_refl _)]

/-! ## Scanner: truncated ranges -/

theorem take_kw_encodeRecord (L : HintLayout) (r : HintRec) :
    (encodeRecord L r).take L.kw = leBytes L.kw r.key.length := by
  have : encodeRecord L r = leBytes L.kw r.key.length ++ (leBytes L.pw r.pos
      ++ leBytes L.vw (ofSigned L.vw r.version) ++ leBytes L.hw r.hash ++ r.key ++ [r.term]) := by
    simp [encodeRecord, List.append_assoc]
  rw [this]
  exact List.take_left' (leBytes_length _ _)

/-- A pass of the scan loop that starts on a truncated record stops the scan
and leaves the index and the calls as they are. -/
theorem scanLoop_stops_on_cut (L : HintLayout) (bucket : Int) (pre : List Nat) (r : HintRec)
    (hr : r.Fits L) (m : Nat) (hm0 : 0 < m) (hm : m < recSize L r) (fuel : Nat)
    (s : ScanState) :
    ∃ rd t, scanLoop L bucket (pre ++ (encodeRecord L r).take m) (fuel + 1) pre.length s
      = some { tree := s.tree, calls := s.calls, reads := rd, truncated := some t } := by
  have hlen : (pre ++ (encodeRecord L r).take m).length = pre.length + m := by
    simp [encodeRecord_length]
    omega
  have hneed : pre.length + m
      < pre.length + (L.hdr + leVal (readBytes (pre ++ (encodeRecord L r).take m)
          pre.length L.kw) + 1) := by
    by_cases hkm : L.kw ≤ m
    · have : readBytes (pre ++ (encodeRecord L r).take m) pre.length L.kw
          = leBytes L.kw r.key.length := by
        unfold readBytes
        rw [List.drop_left, List.take_take, Nat.min_eq_left hkm, take_kw_encodeRecord]
      rw [this, leVal_leBytes_of_lt hr.1]
      unfold recSize at hm
      omega
    · unfold HintLayout.hdr
      omega
  simp only [scanLoop]
  rw [if_pos (by rw [hlen]; omega), if_pos (by rw [hlen]; exact hneed)]
  exact ⟨_, _, rfl⟩

/-- A cut of a concatenation of complete records is the records wholly inside
the cut, followed by nothing or by a proper non-empty prefix of one record. -/
theorem take_encodeAll (L : HintLayout) :
    ∀ (rs : List HintRec) (t : Nat), (∀ r ∈ rs, r.Fits L) →
      (encodeAll L rs).take t = encodeAll L (wholeRecords L rs t) ∨
      ∃ r m, r.Fits L ∧ 0 < m ∧ m < recSize L r ∧
        (encodeAll L rs).take t
          = encodeAll L (wholeRecords L rs t) ++ (encodeRecord L r).take m := by
  intro rs
  induction rs with
  | nil => intro t _; left; simp [encodeAll, wholeRecords]
  | cons r rs ih =>
    intro t hfit
    have hr : r.Fits L := hfit r (List.mem_cons_self _ _)
    have hrs : ∀ x ∈ rs, x.Fits L := fun x hx => hfit x (List.mem_cons_of_mem _ hx)
    by_cases h : recSize L r ≤ t
    · have e : (encodeAll L (r :: rs)).take t
          = encodeRecord L r ++ (encodeAll L rs).take (t - recSize L r) := by
        simp only [encodeAll]
        rw [List.take_append_eq_append_take, encodeRecord_length,
          List.take_of_length_le (by rw [encodeRecord_length]; exact h)]
      have w : wholeRecords L (r :: rs) t = r :: wholeRecords L rs (t - recSize L r) := by
        simp [wholeRecords, h]
      rcases ih (t - recSize L r) hrs with h1 | ⟨r', m, hr', hm0, hm, h1⟩
      · left
        rw [e, w, h1]
        rfl
      · right
        refine ⟨r', m, hr', hm0, hm, ?_⟩
        rw [e, w, h1]
        simp [encodeAll, List.append_assoc]
    · have w : wholeRecords L (r :: rs) t = [] := by simp [wholeRecords, h]
      have e : (encodeAll L (r :: rs)).take t = (encodeRecord L r).take t := by
        simp only [encodeAll]
        rw [List.take_append_eq_append_take, encodeRecord_length]
        have : t - recSize L r = 0 := by omega
        rw [this]
        simp
      by_cases ht : t = 0
      · left
        rw [w, ht]
        simp [encodeAll]
      · right
        exact ⟨r, t, hr, by omega, by omega, by rw [e, w]; simp [encodeAll]⟩

theorem wholeRecords_fits (L : HintLayout) :
    ∀ (rs : List HintRec) (t : Nat), (∀ r ∈ rs, r.Fits L) →
      ∀ r ∈ wholeRecords L rs t, r.Fits L := by
  intro rs
  induction rs with
  | nil => intro t _ r hr; simp [wholeRecords] at hr
  | cons x rs ih =>
    intro t hfit r hr
    simp only [wholeRecords] at hr
    split at hr
    · rcases List.mem_cons.mp hr with h | h
      · rw [h]; exact hfit x (List.mem_cons_self _ _)
      · exact ih _ (fun y hy => hfit y (List.mem_cons_of_mem _ hy)) r h
    · simp at hr

/-- Scanning a cut of a concatenation of complete records returns, having made
exactly the calls of the records wholly inside the cut. -/
theorem scanHintFile_cut (L : HintLayout) (rs : List HintRec) (hfit : ∀ r ∈ rs, r.Fits L)
    (t : Nat) (tree : HTree) (bucket : Int) :
    ∃ rd tr, scanHintFile L tree bucket (some ((encodeAll L rs).take t))
      = some { tree := applyCalls tree ((wholeRecords L rs t).map (recordCall bucket)),
               calls := (wholeRecords L rs t).map (recordCall bucket),
               reads := rd, truncated := tr } := by
  have hw := wholeRecords_fits L rs t hfit
  rcases take_encodeAll L rs t hfit with h | ⟨r, m, hr, hm0, hm, h⟩
  · rw [h]
    obtain ⟨rd, h'⟩ := scanHintFile_complete L _ hw tree bucket
    exact ⟨rd, none, h'⟩
  · rw [h]
    set ws := wholeRecords L rs t with hws
    have hl := length_le_encodeAll L ws
    have hlen : (encodeAll L ws ++ (encodeRecord L r).take m).length
        = ((encodeAll L ws).length - ws.length + (m - 1) + 1) + ws.length := by
      simp [encodeRecord_length]
      omega
    obtain ⟨rd1, h1⟩ := scanLoop_records L bucket ws [] ((encodeRecord L r).take m)
      ((encodeAll L ws).length - ws.length + (m - 1) + 1)
      { tree := tree, calls := [], reads := [], truncated := none } hw
    obtain ⟨rd2, t2, h2⟩ := scanLoop_stops_on_cut L bucket (encodeAll L ws) r hr m hm0 hm
      ((encodeAll L ws).length - ws.length + (m - 1))
      { tree := applyCalls tree (ws.map (recordCall bucket)),
        calls := [] ++ ws.map (recordCall bucket), reads := rd1, truncated := none }
    refine ⟨rd2, some t2, ?_⟩
    simp only [scanHintFile]
    rw [hlen]
    simp only [List.nil_append, List.length_nil, Nat.zero_add] at h1 h2
    rw [h1, h2]

/-! ## The deleted-record audit -/

theorem countLoop_total (L : HintLayout) (bucket : Int) (buf : List Nat) :
    ∀ (fuel p : Nat) (s : CountState), buf.length ≤ p + fuel →
      ∃ s', countLoop L bucket buf fuel p s = some s' := by
  intro fuel
  induction fuel with
  | zero =>
    intro p s h
    refine ⟨s, ?_⟩
    simp only [countLoop]
    rw [if_neg (by omega)]
  | succ n ih =>
    intro p s h
    simp only [countLoop]
    split
    · split
      · exact ⟨_, rfl⟩
      · exact ih _ _ (by omega)
    · exact ⟨s, rfl⟩

theorem countLoop_reads (L : HintLayout) (hk : L.kw = 1) (bucket : Int) (buf : List Nat) :
    ∀ (fuel p : Nat) (s s' : CountState), countLoop L bucket buf fuel p s = some s' →
      (∀ i ∈ s.reads, i < buf.length) → ∀ i ∈ s'.reads, i < buf.length := by
  intro fuel
  induction fuel with
  | zero =>
    intro p s s' h hs
    simp only [countLoop] at h
    split at h
    · exact absurd h (by simp)
    · cases h; exact hs
  | succ n ih =>
    intro p s s' h hs
    simp only [countLoop] at h
    split at h
    · rename_i hp
      split at h
      · cases h
        intro i hi
        simp only [List.mem_append, mem_span] at hi
        rcases hi with hi | hi
        · exact hs i hi
        · omega
      · rename_i hle
        refine ih _ _ _ h ?_
        intro i hi
        simp only [List.mem_append, mem_span, HintLayout.hdr] at hi hle
        rcases hi with ((hi | hi) | hi) | hi
        · exact hs i hi
        all_goals omega
    · cases h; exact hs

theorem countLoop_done (L : HintLayout) (bucket : Int) (buf : List Nat) (fuel p : Nat)
    (s : CountState) (h : buf.length ≤ p) : countLoop L bucket buf fuel p s = some s := by
  cases fuel with
  | zero => simp only [countLoop]; rw [if_neg (by omega)]
  | succ n => simp only [countLoop]; rw [if_neg (by omega)]

theorem countLoop_step (L : HintLayout) (bucket : Int) (pre rest : List Nat) (r : HintRec)
    (hr : r.Fits L) (fuel : Nat) (s : CountState) :
    ∃ rd, countLoop L bucket (pre ++ encodeRecord L r ++ rest) (fuel + 1) pre.length s
      = countLoop L bucket (pre ++ encodeRecord L r ++ rest) fuel (pre.length + recSize L r)
          { tree := s.tree, total := s.total + 1,
            deleted := s.deleted + (if isDeleted (s.tree r.key) r.pos bucket then 1 else 0),
            reads := rd, truncated := s.truncated } := by
  obtain ⟨h1, h2, _, _, h5⟩ := decode_fields L pre rest r hr
  have hlen : (pre ++ encodeRecord L r ++ rest).length
      = pre.length + recSize L r + rest.length := by
    simp [encodeRecord_length]
    omega
  simp only [countLoop]
  rw [if_pos (by rw [hlen]; unfold recSize; omega)]
  simp only [h1, h2, h5]
  rw [if_neg (by rw [hlen]; unfold recSize; omega)]
  refine ⟨s.reads ++ span pre.length L.kw ++ span (pre.length + L.hdr) r.key.length
    ++ span (pre.length + L.kw) L.pw, ?_⟩
  by_cases hd : isDeleted (s.tree r.key) r.pos bucket = true
  · simp only [ht_get2, hd, if_true]
    rfl
  · simp only [ht_get2, hd, Nat.add_zero]
    rfl

/-- The spec-side count of the records that the audit reports as deleted. -/
theorem countLoop_records (L : HintLayout) (bucket : Int) :
    ∀ (rs : List HintRec) (pre rest : List Nat) (fuel : Nat) (s : CountState),
      (∀ r ∈ rs, r.Fits L) →
      ∃ rd, countLoop L bucket (pre ++ encodeAll L rs ++ rest) (fuel + rs.length) pre.length s
        = countLoop L bucket (pre ++ encodeAll L rs ++ rest) fuel
            (pre.length + (encodeAll L rs).length)
            { tree := s.tree, total := s.total + rs.length,
              deleted := s.deleted
                + rs.countP (fun r => isDeleted (s.tree r.key) r.pos bucket),
              reads := rd, truncated := s.truncated } := by
  intro rs
  induction rs with
  | nil =>
    intro pre rest fuel s _
    exact ⟨s.reads, by simp [encodeAll]⟩
  | cons r rs ih =>
    intro pre rest fuel s hfit
    have hr : r.Fits L := hfit r (List.mem_cons_self _ _)
    have hrs : ∀ x ∈ rs, x.Fits L := fun x hx => hfit x (List.mem_cons_of_mem _ hx)
    have e1 : pre ++ encodeAll L (r :: rs) ++ rest
        = pre ++ encodeRecord L r ++ (encodeAll L rs ++ rest) := by
      simp [encodeAll, List.append_assoc]
    have e2 : pre ++ encodeRecord L r ++ (encodeAll L rs ++ rest)
        = (pre ++ encodeRecord L r) ++ encodeAll L rs ++ rest := by
      simp [List.append_assoc]
    obtain ⟨rd1, h1⟩ := countLoop_step L bucket pre (encodeAll L rs ++ rest) r hr
      (fuel + rs.length) s
    obtain ⟨rd2, h2⟩ := ih (pre ++ encodeRecord L r) rest fuel
      { tree := s.tree, total := s.total + 1,
        deleted := s.deleted + (if isDeleted (s.tree r.key) r.pos bucket then 1 else 0),
        reads := rd1, truncated := s.truncated } hrs
    refine ⟨rd2, ?_⟩
    rw [e1, List.length_cons, ← Nat.add_assoc, h1, e2]
    have e3 : pre.length + recSize L r = (pre ++ encodeRecord L r).length := by
      simp [encodeRecord_length]
    dsimp only at h2
    rw [e3, h2]
    have p_eq : (pre ++ encodeRecord L r).length + (encodeAll L rs).length
        = pre.length + (encodeAll L (r :: rs)).length := by
      simp only [encodeAll, List.length_append]
      omega
    have t_eq : s.total + 1 + rs.length = s.total + (r :: rs).length := by
      simp only [List.length_cons]
      omega
    have d_eq : s.deleted + (if isDeleted (s.tree r.key) r.pos bucket then 1 else 0)
          + rs.countP (fun r => isDeleted (s.tree r.key) r.pos bucket)
        = s.deleted + (r :: rs).countP (fun r => isDeleted (s.tree r.key) r.pos bucket) := by
      simp only [List.countP_cons]
      omega
    rw [p_eq, t_eq, d_eq]
    rfl

theorem countLoop_stops_on_cut (L : HintLayout) (bucket : Int) (pre : List Nat) (r : HintRec)
    (hr : r.Fits L) (m : Nat) (hm0 : 0 < m) (hm : m < recSize L r) (fuel : Nat)
    (s : CountState) :
    ∃ rd t, countLoop L bucket (pre ++ (encodeRecord L r).take m) (fuel + 1) pre.length s
      = some { tree := s.tree, total := s.total, deleted := s.deleted,
               reads := rd, truncated := some t } := by
  have hlen : (pre ++ (encodeRecord L r).take m).length = pre.length + m := by
    simp [encodeRecord_length]
    omega
  have hneed : pre.length + m
      < pre.length + (L.hdr + leVal (readBytes (pre ++ (encodeRecord L r).take m)
          pre.length L.kw) + 1) := by
    by_cases hkm : L.kw ≤ m
    · have : readBytes (pre ++ (encodeRecord L r).take m) pre.length L.kw
          = leBytes L.kw r.key.length := by
        unfold readBytes
        rw [List.drop_left, List.take_take, Nat.min_eq_left hkm, take_kw_encodeRecord]
      rw [this, leVal_leBytes_of_lt hr.1]
      unfold recSize at hm
      omega
    · unfold HintLayout.hdr
      omega
  simp only [countLoop]
  rw [if_pos (by rw [hlen]; omega), if_pos (by rw [hlen]; exact hneed)]
  exact ⟨_, _, rfl⟩

theorem count_complete (L : HintLayout) (rs : List HintRec) (hfit : ∀ r ∈ rs, r.Fits L)
    (tree : HTree) (bucket : Int) :
    ∃ rd, count_deleted_record L tree bucket (some (encodeAll L rs))
      = some { tree := tree, total := rs.length,
               deleted := rs.countP (fun r => isDeleted (tree r.key) r.pos bucket),
               reads := rd, truncated := none } := by
  obtain ⟨rd, h⟩ := countLoop_records L bucket rs [] []
    ((encodeAll L rs).length - rs.length)
    { tree := tree, total := 0, deleted := 0, reads := [], truncated := none } hfit
  refine ⟨rd, ?_⟩
  have hl := length_le_encodeAll L rs
  simp only [List.nil_append, List.append_nil, List.length_nil, Nat.zero_add,
    Nat.sub_add_cancel hl] at h
  simp only [count_deleted_record]
  rw [h, countLoop_done _ _ _ _ _ _ (le_refl _)]

theorem count_cut (L : HintLayout) (rs : List HintRec) (hfit : ∀ r ∈ rs, r.Fits L)
    (t : Nat) (tree : HTree) (bucket : Int) :
    ∃ d rd tr, count_deleted_record L tree bucket (some ((encodeAll L rs).take t))
      = some { tree := tree, total := (wholeRecords L rs t).length,
               deleted := d, reads := rd, truncated := tr } := by
  have hw := wholeRecords_fits L rs t hfit
  rcases take_encodeAll L rs t hfit with h | ⟨r, m, hr, hm0, hm, h⟩
  · rw [h]
    obtain ⟨rd, h'⟩ := count_complete L _ hw tree bucket
    exact ⟨_, rd, none, h'⟩
  · rw [h]
    set ws := wholeRecords L rs t with hws
    have hl := length_le_encodeAll L ws
    have hlen : (encodeAll L ws ++ (encodeRecord L r).take m).length
        = ((encodeAll L ws).length - ws.length + (m - 1) + 1) + ws.length := by
      simp [encodeRecord_length]
      omega
    obtain ⟨rd1, h1⟩ := countLoop_records L bucket ws [] ((encodeRecord L r).take m)
      ((encodeAll L ws).length - ws.length + (m - 1) + 1)
      { tree := tree, total := 0, deleted := 0, reads := [], truncated := none } hw
    obtain ⟨rd2, t2, h2⟩ := countLoop_stops_on_cut L bucket (encodeAll L ws) r hr m hm0 hm
      ((encodeAll L ws).length - ws.length + (m - 1))
      { tree := tree, total := 0 + ws.length,
        deleted := 0 + ws.countP (fun r => isDeleted (tree r.key) r.pos bucket),
        reads := rd1, truncated := none }
    refine ⟨ws.countP (fun r => isDeleted (tree r.key) r.pos bucket), rd2, some t2, ?_⟩
    simp only [count_deleted_record]
    rw [hlen]
    simp only [List.nil_append, List.length_nil, Nat.zero_add] at h1 h2
    rw [h1, h2]

/-! ## Positions and the last record of a key -/

theorem pos_or_bucket_lt {rpos b : Nat} (hp : rpos < 2 ^ 24) (hb : b ≤ 255) :
    (rpos <<< 8) ||| b < 2 ^ 32 := by
  apply Nat.or_lt_two_pow
  · rw [Nat.shiftLeft_eq]
    omega
  · omega

theorem scanPos_eq {rpos b : Nat} (hp : rpos < 2 ^ 24) (hb : b ≤ 255) :
    scanPos rpos (b : Int) = (rpos <<< 8) ||| b := by
  unfold scanPos
  have : ((b : Int) % 256).toNat = b := by omega
  rw [this, Nat.mod_eq_of_lt (pos_or_bucket_lt hp hb)]

theorem countPos_eq {rpos b : Nat} (hp : rpos < 2 ^ 24) (hb : b ≤ 255) :
    countPos rpos (b : Int) = (rpos <<< 8) ||| b := by
  unfold countPos
  have : ((b : Int) % 4294967296).toNat = b := by omega
  rw [this, Nat.mod_eq_of_lt (pos_or_bucket_lt hp hb)]

theorem fits_pos_lt {L : HintLayout} (hpw : L.pw ≤ 3) {r : HintRec} (hr : r.Fits L) :
    r.pos < 2 ^ 24 := by
  have h1 : r.pos < 256 ^ L.pw := hr.2.1
  have h2 : 256 ^ L.pw ≤ 256 ^ 3 := Nat.pow_le_pow_right (by decide) hpw
  have h3 : (256 : Nat) ^ 3 = 2 ^ 24 := by norm_num
  omega

/-- The index after the calls of a list of records: every key holds what its
last record says, and keys without a record are untouched. -/
theorem applyCalls_last (bucket : Int) (tree : HTree) (rs : List HintRec) (k : List Nat) :
    applyCalls tree (rs.map (recordCall bucket)) k =
      match lastRecord rs k with
      | none => tree k
      | some r =>
        if r.version > 0 then
          some { pos := scanPos r.pos bucket, hash := r.hash, ver := r.version }
        else none := by
  induction rs using List.reverseRecOn with
  | nil => simp [applyCalls, lastRecord]
  | append_singleton rs r ih =>
    have e : applyCalls tree ((rs ++ [r]).map (recordCall bucket)) k
        = (recordCall bucket r).apply (applyCalls tree (rs.map (recordCall bucket))) k := by
      simp [applyCalls, List.foldl_append]
    rw [e]
    by_cases hk : r.key = k
    · have l : lastRecord (rs ++ [r]) k = some r := by
        simp [lastRecord, List.filter_append, hk]
      rw [l]
      by_cases hv : r.version > 0
      · simp [recordCall, hv, IndexCall.apply, ht_add2, hk]
      · simp [recordCall, hv, IndexCall.apply, ht_remove2, hk]
    · have l : lastRecord (rs ++ [r]) k = lastRecord rs k := by
        simp [lastRecord, List.filter_append, hk]
      have hk' : ¬ k = r.key := fun h => hk h.symm
      rw [l, ← ih]
      by_cases hv : r.version > 0
      · simp [recordCall, hv, IndexCall.apply, ht_add2, hk']
      · simp [recordCall, hv, IndexCall.apply, ht_remove2, hk']

/-! ## Mapped files: the counter -/

theorem mappedMb_append (l : List MFile) (h : MFile) :
    mappedMb (l ++ [h]) = mappedMb l + ((h.size >>> 20 : Nat) : Int) := by
  simp [mappedMb]

theorem mappedMb_eraseIdx : ∀ (l : List MFile) (i : Nat) (h : MFile), l[i]? = some h →
    mappedMb (l.eraseIdx i) = mappedMb l - ((h.size >>> 20 : Nat) : Int) := by
  intro l
  induction l with
  | nil => intro i h hi; simp at hi
  | cons x xs ih =>
    intro i h hi
    cases i with
    | zero =>
      simp at hi
      subst hi
      simp [mappedMb]
    | succ j =>
      simp at hi
      have := ih j h hi
      simp only [mappedMb, List.eraseIdx_cons_succ, List.map_cons, List.sum_cons] at this ⊢
      rw [this]
      ring

/-- What `open_mfile` does to the counter, by the way it ends. -/
theorem open_mfile_counter (curr : Int) (f : OsFile) :
    match open_mfile curr f with
    | (Outcome.ret (some h), c) =>
      c = curr + ((h.size >>> 20 : Nat) : Int) ∧ f.st_size = some h.size ∧
        (100 < ((h.size >>> 20 : Nat) : Int) → c ≤ MAX_MMAP_SIZE)
    | (_, c) => c = curr := by
  unfold open_mfile
  by_cases ho : f.openOk = false
  · rw [if_pos ho]
  · rw [if_neg ho]
    cases hs : f.st_size with
    | none => rfl
    | some sz =>
      dsimp only
      by_cases hb : curr + ((sz >>> 20 : Nat) : Int) > MAX_MMAP_SIZE
          ∧ ((sz >>> 20 : Nat) : Int) > 100
      · rw [if_pos hb]
      · rw [if_neg hb]
        have hbound : 100 < ((sz >>> 20 : Nat) : Int) →
            curr + ((sz >>> 20 : Nat) : Int) ≤ MAX_MMAP_SIZE := by
          intro hbig
          by_contra hc
          exact hb ⟨by omega, hbig⟩
        by_cases hz : sz > 0
        · rw [if_pos hz]
          by_cases hm : f.mmapOk = false
          · rw [if_pos hm]
            show curr + ((sz >>> 20 : Nat) : Int) - ((sz >>> 20 : Nat) : Int) = curr
            omega
          · rw [if_neg hm]
            exact ⟨rfl, rfl, hbound⟩
        · rw [if_neg hz]
          exact ⟨rfl, rfl, hbound⟩

/-- Every call keeps the counter equal to a constant plus the megabytes of the
handles that are open. -/
theorem step_counter (s s1 : MState) (op : MOp) (h : s.step op = some s1) :
    s1.curr - mappedMb s1.live = s.curr - mappedMb s.live := by
  cases op with
  | openOp f =>
    have hc := open_mfile_counter s.curr f
    simp only [MState.step] at h
    generalize open_mfile s.curr f = r at h hc
    obtain ⟨o, c⟩ := r
    cases o with
    | ret a =>
      cases a with
      | none =>
        simp only at h hc
        cases h
        simp [hc]
      | some hd =>
        simp only at h hc
        cases h
        simp only [mappedMb_append]
        rw [hc.1]
        ring
    | blocked => simp at h
    | exited => simp at h
  | closeOp i =>
    simp only [MState.step] at h
    cases hi : s.live[i]? with
    | none => simp [hi] at h
    | some hd =>
      simp only [hi] at h
      cases h
      simp only [mappedMb_eraseIdx s.live i hd hi, close_mfile]
      ring

theorem run_counter : ∀ (ops : List MOp) (s s1 : MState), s.run ops = some s1 →
    s1.curr - mappedMb s1.live = s.curr - mappedMb s.live := by
  intro ops
  induction ops with
  | nil => intro s s1 h; simp only [MState.run] at h; cases h; rfl
  | cons op ops ih =>
    intro s s1 h
    simp only [MState.run] at h
    cases hs : s.step op with
    | none => simp [hs] at h
    | some s2 =>
      simp only [hs] at h
      rw [ih s2 s1 h, step_counter s s2 op hs]

/-! ## The connection table -/

theorem setAt_same {α : Type} (m : Nat → Option α) (fd : Nat) (v : Option α) :
    setAt m fd v fd = v := by
  simp [setAt]

theorem setAt_other {α : Type} (m : Nat → Option α) (fd x : Nat) (v : Option α) (h : x ≠ fd) :
    setAt m fd v x = m x := by
  simp [setAt, h]

theorem setAt_setAt {α : Type} (m : Nat → Option α) (fd : Nat) (v w : Option α) :
    setAt (setAt m fd v) fd w = setAt m fd w := by
  funext x
  by_cases h : x = fd <;> simp [setAt, h]

/-- The invariant of a loop that differs from one that has it in the slot
`fd` only, where table and registration agree. -/
theorem tableInv_setAt (cfg : AeConfig) (loop : EventLoop) (fd : Nat)
    (v : Option Conn) (w : Option Nat) (hinv : TableInv cfg loop)
    (hvw : v.isSome ↔ w.isSome) :
    TableInv cfg { conns := setAt loop.conns fd v, reg := setAt loop.reg fd w } := by
  intro x hx
  by_cases h : x = fd
  · subst h
    simp only [setAt_same]
    exact hvw
  · simp only [setAt_other _ _ _ _ h]
    exact hinv x hx

theorem tableSound_setAt_none (cfg : AeConfig) (loop : EventLoop) (fd : Nat)
    (reg1 : Nat → Option Nat) (hs : TableSound cfg loop)
    (hreg : ∀ x, x ≠ fd → reg1 x = loop.reg x) :
    TableSound cfg { conns := setAt loop.conns fd none, reg := reg1 } := by
  intro x hx hc
  by_cases h : x = fd
  · subst h
    simp [setAt_same] at hc
  · simp only [setAt_other _ _ _ _ h] at hc
    show (reg1 x).isSome = true
    rw [hreg x h]
    exact hs x hx hc

theorem TableInv.sound {cfg : AeConfig} {loop : EventLoop} (h : TableInv cfg loop) :
    TableSound cfg loop := fun fd hfd hc => (h fd hfd).mp hc

theorem setAt_self_eq {α : Type} (m : Nat → Option α) (fd : Nat) : setAt m fd (m fd) = m := by
  funext x
  by_cases h : x = fd
  · subst h; simp [setAt]
  · simp [setAt, h]

/-- The invariant after `add_event`, on both of its paths. -/
theorem add_event_inv (cfg : AeConfig) (loop : EventLoop) (fd mask : Nat) (c : Conn)
    (fault : Option Fault) (hinv : TableInv cfg loop) :
    match add_event cfg loop fd mask c fault with
    | none => (loop.conns fd).isSome = true
    | some (r, l) => TableInv cfg l ∧ (cfg.AE_SETSIZE ≤ fd → r = cfg.AE_ERR ∧ l = loop) := by
  unfold add_event
  by_cases hfd : fd ≥ cfg.AE_SETSIZE
  · rw [if_pos hfd]
    exact ⟨hinv, fun _ => ⟨rfl, rfl⟩⟩
  · rw [if_neg hfd]
    by_cases hc : (loop.conns fd).isSome = true
    · rw [if_pos hc]
      exact hc
    · rw [if_neg hc]
      have hr : (loop.reg fd).isSome = false := by
        have := hinv fd (by omega)
        cases h : (loop.reg fd).isSome
        · rfl
        · exact absurd (this.mpr h) hc
      have hcn : loop.conns fd = none := by
        cases h : loop.conns fd
        · rfl
        · simp [h] at hc
      have hrn : loop.reg fd = none := by
        cases h : loop.reg fd
        · rfl
        · simp [h] at hr
      cases fault with
      | some e =>
        have : aeApiAddEvent cfg loop.reg fd mask (some e) = (-1, loop.reg) := by
          cases e <;> simp [aeApiAddEvent, epoll_ctl, Fault.errno]
        simp only [this, if_true]
        refine ⟨?_, fun h => absurd h (by omega)⟩
        rw [setAt_setAt]
        have := tableInv_setAt cfg loop fd none none hinv (by simp)
        rw [← hrn, setAt_self_eq] at this
        rw [hrn] at this
        exact this
      | none =>
        have : aeApiAddEvent cfg loop.reg fd mask none
            = (0, setAt loop.reg fd (some (epollEvents cfg mask))) := by
          simp [aeApiAddEvent, epoll_ctl, hr]
        simp only [this]
        rw [if_neg (by decide)]
        exact ⟨tableInv_setAt cfg loop fd _ _ hinv (by simp), fun h => absurd h (by omega)⟩

/-- What `update_event` returns, by the answer of `epoll_ctl`. -/
theorem update_event_cases (cfg : AeConfig) (loop : EventLoop) (fd mask : Nat) (c : Conn)
    (fault : Option Fault) :
    (fault = none ∧ (loop.reg fd).isSome = true ∧
      (aeApiUpdateEvent cfg loop.reg fd mask fault).1 = 0 ∧
      update_event cfg loop fd mask c fault
        = (cfg.AE_OK, { conns := setAt loop.conns fd (some c),
                        reg := setAt loop.reg fd (some (epollEvents cfg mask)) })) ∨
    ((fault ≠ none ∨ (loop.reg fd).isSome = false) ∧
      (aeApiUpdateEvent cfg loop.reg fd mask fault).1 = -1 ∧
      update_event cfg loop fd mask c fault
        = (cfg.AE_ERR, { conns := setAt loop.conns fd none, reg := loop.reg })) := by
  cases fault with
  | some e =>
    right
    refine ⟨Or.inl (by simp), ?_, ?_⟩
    · simp [aeApiUpdateEvent, epoll_ctl]
    · simp [update_event, aeApiUpdateEvent, epoll_ctl, setAt_setAt]
  | none =>
    cases hr : (loop.reg fd).isSome
    · right
      refine ⟨Or.inr rfl, ?_, ?_⟩
      · simp [aeApiUpdateEvent, epoll_ctl, hr]
      · simp [update_event, aeApiUpdateEvent, epoll_ctl, hr, setAt_setAt]
    · left
      refine ⟨rfl, rfl, ?_, ?_⟩
      · simp [aeApiUpdateEvent, epoll_ctl, hr]
      · simp [update_event, aeApiUpdateEvent, epoll_ctl, hr]

/-- What `delete_event` returns for a descriptor below `AE_SETSIZE`. -/
theorem delete_event_cases (cfg : AeConfig) (loop : EventLoop) (fd : Nat)
    (fault : Option Fault) (hfd : fd < cfg.AE_SETSIZE) :
    (fault = none ∧
      delete_event cfg loop fd fault
        = (0, { conns := setAt loop.conns fd none, reg := setAt loop.reg fd none })) ∨
    (fault ≠ none ∧
      delete_event cfg loop fd fault
        = (-1, { conns := setAt loop.conns fd none, reg := loop.reg })) := by
  have hn : ¬ fd ≥ cfg.AE_SETSIZE := by omega
  cases fault with
  | some e =>
    right
    refine ⟨by simp, ?_⟩
    cases e <;> simp [delete_event, hn, aeApiDelEvent, epoll_ctl, Fault.errno]
  | none =>
    left
    refine ⟨rfl, ?_⟩
    cases hr : (loop.reg fd).isSome
    · have hrn : loop.reg fd = none := by
        cases h : loop.reg fd
        · rfl
        · simp [h] at hr
      have : setAt loop.reg fd none = loop.reg := by
        rw [← hrn, setAt_self_eq]
      simp [delete_event, hn, aeApiDelEvent, epoll_ctl, hr, this]
    · simp [delete_event, hn, aeApiDelEvent, epoll_ctl, hr]

theorem update_event_inv (cfg : AeConfig) (loop : EventLoop) (fd mask : Nat) (c : Conn)
    (fault : Option Fault) (hinv : TableInv cfg loop) :
    TableSound cfg (update_event cfg loop fd mask c fault).2 ∧
    (fault = none → TableInv cfg (update_event cfg loop fd mask c fault).2) ∧
    ((aeApiUpdateEvent cfg loop.reg fd mask fault).1 ≠ -1 →
      (update_event cfg loop fd mask c fault).1 = cfg.AE_OK ∧
      TableInv cfg (update_event cfg loop fd mask c fault).2) := by
  rcases update_event_cases cfg loop fd mask c fault with ⟨_, _, h0, h⟩ | ⟨hwhy, h1, h⟩
  · have hi : TableInv cfg (update_event cfg loop fd mask c fault).2 := by
      rw [h]
      exact tableInv_setAt cfg loop fd _ _ hinv (by simp)
    exact ⟨hi.sound, fun _ => hi, fun _ => ⟨by rw [h], hi⟩⟩
  · refine ⟨?_, ?_, fun hne => absurd h1 hne⟩
    · rw [h]
      exact tableSound_setAt_none cfg loop fd loop.reg hinv.sound (fun _ _ => rfl)
    · intro hf
      rcases hwhy with hw | hw
      · exact absurd hf hw
      · rw [h]
        have hrn : loop.reg fd = none := by
          cases hh : loop.reg fd
          · rfl
          · simp [hh] at hw
        have := tableInv_setAt cfg loop fd none none hinv (by simp)
        rw [← hrn, setAt_self_eq] at this
        rw [hrn] at this
        exact this

theorem delete_event_inv (cfg : AeConfig) (loop : EventLoop) (fd : Nat)
    (fault : Option Fault) (hinv : TableInv cfg loop) :
    TableSound cfg (delete_event cfg loop fd fault).2 ∧
    (fault = none → TableInv cfg (delete_event cfg loop fd fault).2) ∧
    ((delete_event cfg loop fd fault).1 = 0 →
      TableInv cfg (delete_event cfg loop fd fault).2) := by
  by_cases hfd : fd < cfg.AE_SETSIZE
  · rcases delete_event_cases cfg loop fd fault hfd with ⟨_, h⟩ | ⟨hf, h⟩
    · have hi : TableInv cfg (delete_event cfg loop fd fault).2 := by
        rw [h]
        exact tableInv_setAt cfg loop fd none none hinv (by simp)
      exact ⟨hi.sound, fun _ => hi, fun _ => hi⟩
    · refine ⟨?_, fun h0 => absurd h0 hf, ?_⟩
      · rw [h]
        exact tableSound_setAt_none cfg loop fd loop.reg hinv.sound (fun _ _ => rfl)
      · rw [h]
        intro h0
        simp at h0
  · have : delete_event cfg loop fd fault = (-1, loop) := by
      simp [delete_event, Nat.le_of_not_lt hfd]
    rw [this]
    exact ⟨hinv.sound, fun _ => hinv, fun _ => hinv⟩

/-- The scenario of the spec: (a,10,1), (b,20,1), (a,30,2) scanned with bucket
5 under the sample layout leave a at `(30 << 8) | 5` and b at `(20 << 8) | 5`. -/
theorem scenario_scan :
    (scanHintFile beansdbLayout (fun _ => none) 5
        (some (encodeAll beansdbLayout [(⟨[97], 10, 1, 7, 0⟩ : HintRec), ⟨[98], 20, 1, 8, 0⟩,
          ⟨[97], 30, 2, 9, 0⟩]))).map (fun s => (s.tree [97], s.tree [98], s.truncated))
      = some (some { pos := 7685, hash := 9, ver := 2 },
              some { pos := 5125, hash := 8, ver := 1 }, none) := by
  decide

/-- The audit of the same range against the rebuilt index: one deleted record
out of three. -/
theorem scenario_audit :
    (count_deleted_record beansdbLayout
        (fun k => if k = [97] then some { pos := 7685, hash := 9, ver := 2 }
          else if k = [98] then some { pos := 5125, hash := 8, ver := 1 } else none) 5
        (some (encodeAll beansdbLayout [(⟨[97], 10, 1, 7, 0⟩ : HintRec), ⟨[98], 20, 1, 8, 0⟩,
          ⟨[97], 30, 2, 9, 0⟩]))).map (fun c => (c.deleted, c.total))
      = some (1, 3) := by
  decide

/-- Why the bound on the reads needs the key length to be one byte: under a
layout with a two-byte key length, the scan of a one-byte range reads the
offset 1, which is outside the range. -/
theorem wide_key_length_reads_past_end :
    (scanHintFile { kw := 2, pw := 3, vw := 4, hw := 2 } (fun _ => none) 5 (some [1])).map
        (fun s => s.reads) = some [0, 1] := by
  decide

/-! ## Building a hint buffer -/

theorem strlen_append_nul (key : List Nat) (h : ∀ b ∈ key, b ≠ 0) :
    strlen (key ++ [0]) = key.length := by
  induction key with
  | nil => simp [strlen]
  | cons b bs ih =>
    have hb : b ≠ 0 := h b (List.mem_cons_self _ _)
    have hbs : ∀ x ∈ bs, x ≠ 0 := fun x hx => h x (List.mem_cons_of_mem _ hx)
    simp [strlen, hb, ih hbs]

theorem writeAt_length (buf : List Nat) (off : Nat) (bytes : List Nat)
    (h : off + bytes.length ≤ buf.length) : (writeAt buf off bytes).length = buf.length := by
  simp only [writeAt, List.length_append, List.length_take, List.length_drop]
  omega

theorem writeAt_take (buf : List Nat) (off : Nat) (bytes : List Nat) (h : off ≤ buf.length) :
    (writeAt buf off bytes).take (off + bytes.length) = buf.take off ++ bytes := by
  have hl : (buf.take off ++ bytes).length = off + bytes.length := by
    simp only [List.length_append, List.length_take]
    omega
  unfold writeAt
  rw [← hl]
  exact List.take_left' rfl

theorem realloc_length (buf : List Nat) (size : Nat) (h : buf.length ≤ size) :
    (realloc buf size).length = size := by
  simp only [realloc, List.length_take, List.length_append, List.length_replicate]
  omega

theorem realloc_take (buf : List Nat) (size n : Nat) (hn : n ≤ buf.length)
    (h : buf.length ≤ size) : (realloc buf size).take n = buf.take n := by
  unfold realloc
  rw [List.take_take, Nat.min_eq_left (by omega), List.take_append_of_le_length hn]

/-- The bytes that `collect_items` stores for an item whose key has no NUL
byte and a length that fits the key-length field are the encoding of its
record. -/
theorem collect_record_bytes (L : HintLayout) (it : KeyedItem) (hnul : ∀ b ∈ it.key, b ≠ 0)
    (hk : it.key.length < 256 ^ L.kw) :
    leBytes L.kw (strlen (it.key ++ [0])) ++ leBytes L.pw (it.pos >>> 8)
      ++ leBytes L.vw (ofSigned L.vw it.ver) ++ leBytes L.hw it.hash
      ++ (it.key ++ [0]).take (leVal (leBytes L.kw (strlen (it.key ++ [0]))) + 1)
    = encodeRecord L (itemRecord it) := by
  rw [strlen_append_nul it.key hnul, leVal_leBytes_of_lt hk]
  have : (it.key ++ [0]).take (it.key.length + 1) = it.key ++ [0] :=
    List.take_of_length_le (by simp)
  rw [this]
  simp [encodeRecord, itemRecord, List.append_assoc]

/-- One call of `collect_items` on a buffer with room for a record after at
most one doubling: it appends the encoding of the item's record. -/
theorem collect_items_appends (L : HintLayout) (it : KeyedItem) (p : Param)
    (hnul : ∀ b ∈ it.key, b ≠ 0) (hk : it.key.length < 256 ^ L.kw)
    (hbuf : p.buf.length = p.size) (hcurr : p.curr ≤ p.size)
    (hroom : recSize L (itemRecord it) ≤ p.size) :
    ∃ p1, collect_items L it p = some p1 ∧ p1.buf.length = p1.size ∧
      p1.curr = p.curr + recSize L (itemRecord it) ∧ p1.curr ≤ p1.size ∧
      p.size ≤ p1.size ∧
      p1.buf.take p1.curr = p.buf.take p.curr ++ encodeRecord L (itemRecord it) := by
  have hrec := collect_record_bytes L it hnul hk
  have hlen : (encodeRecord L (itemRecord it)).length = recSize L (itemRecord it) :=
    encodeRecord_length L _
  have hsz : L.hdr + strlen (it.key ++ [0]) + 1 = recSize L (itemRecord it) := by
    rw [strlen_append_nul it.key hnul]
    rfl
  unfold collect_items
  simp only [hrec, hsz, hlen]
  by_cases hd : p.size - p.curr < recSize L (itemRecord it)
  · rw [if_pos hd]
    have hl2 : (realloc p.buf (p.size * 2)).length = p.size * 2 :=
      realloc_length _ _ (by omega)
    simp only [hl2]
    rw [if_neg (by omega)]
    refine ⟨_, rfl, ?_, rfl, ?_, ?_, ?_⟩
    · simp only
      rw [writeAt_length _ _ _ (by rw [hl2, hlen]; omega), hl2]
    · simp only; omega
    · simp only; omega
    · simp only
      rw [← hlen, writeAt_take _ _ _ (by rw [hl2]; omega),
        realloc_take _ _ _ (by omega) (by omega)]
  · rw [if_neg hd]
    rw [if_neg (by omega)]
    refine ⟨_, rfl, ?_, rfl, ?_, ?_, ?_⟩
    · simp only
      rw [writeAt_length _ _ _ (by rw [hlen]; omega), hbuf]
    · simp only; omega
    · simp only; omega
    · simp only
      rw [← hlen, writeAt_take _ _ _ (by omega)]

/-- The calls of `collect_items` for a list of items append the encodings of
their records, in order. -/
theorem collectAll_appends (L : HintLayout) :
    ∀ (items : List KeyedItem) (p : Param),
      (∀ it ∈ items, ∀ b ∈ it.key, b ≠ 0) →
      (∀ it ∈ items, it.key.length < 256 ^ L.kw) →
      (∀ it ∈ items, recSize L (itemRecord it) ≤ p.size) →
      p.buf.length = p.size → p.curr ≤ p.size →
      ∃ p1, collectAll L items p = some p1 ∧
        p1.curr = p.curr + ((items.map itemRecord).map (recSize L)).sum ∧
        p1.buf.take p1.curr = p.buf.take p.curr ++ encodeAll L (items.map itemRecord) := by
  intro items
  induction items with
  | nil =>
    intro p _ _ _ _ _
    exact ⟨p, rfl, by simp, by simp [encodeAll]⟩
  | cons it its ih =>
    intro p hnul hk hroom hbuf hcurr
    obtain ⟨p1, h1, hb1, hc1, hle1, hs1, ht1⟩ := collect_items_appends L it p
      (hnul it (List.mem_cons_self _ _)) (hk it (List.mem_cons_self _ _)) hbuf hcurr
      (hroom it (List.mem_cons_self _ _))
    obtain ⟨p2, h2, hc2, ht2⟩ := ih p1
      (fun x hx => hnul x (List.mem_cons_of_mem _ hx))
      (fun x hx => hk x (List.mem_cons_of_mem _ hx))
      (fun x hx => Nat.le_trans (hroom x (List.mem_cons_of_mem _ hx)) hs1) hb1 hle1
    refine ⟨p2, ?_, ?_, ?_⟩
    · simp only [collectAll, h1, h2]
    · rw [hc2, hc1]
      simp only [List.map_cons, List.sum_cons]
      omega
    · rw [ht2, ht1]
      simp [encodeAll, List.append_assoc]

theorem encodeAll_length (L : HintLayout) (rs : List HintRec) :
    (encodeAll L rs).length = (rs.map (recSize L)).sum := by
  induction rs with
  | nil => rfl
  | cons r rs ih => simp [encodeAll, encodeRecord_length, ih]

theorem scanPos_shift (pos b : Nat) (hp : pos < 2 ^ 32) (hb : b ≤ 255) :
    scanPos (pos >>> 8) (b : Int) = withLowByte pos b := by
  have h24 : pos >>> 8 < 2 ^ 24 := by
    rw [Nat.shiftRight_eq_div_pow]
    omega
  rw [scanPos_eq h24 hb, Nat.shiftLeft_eq, Nat.shiftRight_eq_div_pow, withLowByte]
  have := Nat.mul_add_lt_is_or (show b < 2 ^ 8 by omega) (pos / 2 ^ 8)
  rw [Nat.mul_comm] at this
  exact this.symm

theorem withLowByte_self (pos : Nat) : withLowByte pos (pos % 256) = pos := by
  unfold withLowByte
  omega

theorem recordCall_item (it : KeyedItem) (b : Nat) (hp : it.pos < 2 ^ 32) (hb : b ≤ 255) :
    recordCall (b : Int) (itemRecord it)
      = if it.ver > 0 then IndexCall.add it.key (withLowByte it.pos b) it.hash it.ver
        else IndexCall.remove it.key := by
  simp only [recordCall, itemRecord, scanPos_shift it.pos b hp hb]

theorem buildHintParam_wellFormed :
    buildHintParam.buf.length = buildHintParam.size ∧ buildHintParam.curr = 0 :=
  ⟨List.length_replicate _ _, rfl⟩

/-- Two items collected into a buffer of 16 bytes under the sample layout:
the buffer is doubled once, 25 bytes are used, and the scan of these bytes
with bucket 5 makes the calls of the two items. -/
theorem scenario_collect :
    (collectAll beansdbLayout [(⟨[97], 2565, 1, 7⟩ : KeyedItem), ⟨[98, 99], 5125, -3, 8⟩]
        ⟨16, 0, List.replicate 16 0⟩).map (fun p => (p.size, p.curr, p.buf.take p.curr))
      = some (32, 25, [1, 10, 0, 0, 1, 0, 0, 0, 7, 0, 97, 0,
                       2, 20, 0, 0, 253, 255, 255, 255, 8, 0, 98, 99, 0]) ∧
    (scanHintFile beansdbLayout (fun _ => none) 5
        (some [1, 10, 0, 0, 1, 0, 0, 0, 7, 0, 97, 0,
               2, 20, 0, 0, 253, 255, 255, 255, 8, 0, 98, 99, 0])).map
        (fun s => (s.calls, s.truncated))
      = some ([IndexCall.add [97] 2565 7 1, IndexCall.remove [98, 99]], none) := by
  decide

/-- Why the bound on the capacity is needed: `collect_items` doubles the
buffer once only, and a record of 12 bytes does not fit a buffer of 4 bytes
doubled to 8. -/
theorem single_doubling_can_fall_short :
    collect_items beansdbLayout ⟨[97], 2565, 1, 7⟩ ⟨4, 0, List.replicate 4 0⟩ = none := by
  decide

/-- Why the keys must have no NUL byte: `strlen` stops at the first one, and
the record of the key `a\0b` holds the key `a`. -/
theorem nul_in_key_shortens_record :
    (collect_items beansdbLayout ⟨[97, 0, 98], 2565, 1, 7⟩ ⟨16, 0, List.replicate 16 0⟩).map
        (fun p => (p.curr, p.buf.take p.curr))
      = some (12, [1, 10, 0, 0, 1, 0, 0, 0, 7, 0, 97, 0]) := by
  decide

/-! ## Claims about the scanner -/

/-- C1: for every byte range and every bucket id, `scanHintFile` and
`count_deleted_record` return (the fuel handed to their loops is enough) and
every byte offset they read is below the length of the range, also when the
range is cut in the middle of a header or of a key.  The key length is read
before the end of the record is tested, at a moment when only the byte at `p`
is known to be inside the range; the statement therefore holds for a layout
whose key length is the first byte of the record (`L.kw = 1`), the layout
being a parameter because `HintRecord` is declared outside the sources. -/
theorem scan_reads_inside_range (L : HintLayout) (hk : L.kw = 1) (buf : List Nat)
    (bucket : Int) (tree : HTree) :
    (∃ s, scanHintFile L tree bucket (some buf) = some s ∧ ∀ i ∈ s.reads, i < buf.length) ∧
    (∃ c, count_deleted_record L tree bucket (some buf) = some c ∧
      ∀ i ∈ c.reads, i < buf.length) := by
  constructor
  · obtain ⟨s, hs⟩ := scanLoop_total L bucket buf buf.length 0
      { tree := tree, calls := [], reads := [], truncated := none } (by omega)
    exact ⟨s, hs, scanLoop_reads L hk bucket buf _ _ _ _ hs (by simp)⟩
  · obtain ⟨c, hc⟩ := countLoop_total L bucket buf buf.length 0
      { tree := tree, total := 0, deleted := 0, reads := [], truncated := none } (by omega)
    exact ⟨c, hc, countLoop_reads L hk bucket buf _ _ _ _ hc (by simp)⟩

/-- Witness of C1: a range cut in the middle of a header, under the assumed layout. -/
theorem scan_reads_inside_range_witness :
    beansdbLayout.kw = 1 ∧
    ((∃ s, scanHintFile beansdbLayout (fun _ => none) 5 (some [1, 10, 0]) = some s ∧
        ∀ i ∈ s.reads, i < [1, 10, 0].length) ∧
     (∃ c, count_deleted_record beansdbLayout (fun _ => none) 5 (some [1, 10, 0]) = some c ∧
        ∀ i ∈ c.reads, i < [1, 10, 0].length)) :=
  ⟨rfl, scan_reads_inside_range beansdbLayout rfl [1, 10, 0] 5 (fun _ => none)⟩

/-- C2: for a hint range that is a concatenation of complete records and a
bucket id in [0,255], `scanHintFile` returns an index in which every key that
occurs in the range holds `((stored pos << 8) | bucket, hash, version)` of the
last record of that key when that record has a positive version, is absent
when that record has a version `≤ 0`, and every other key keeps its entry. -/
theorem scanHintFile_last_record_wins (L : HintLayout) (hpw : L.pw ≤ 3) (rs : List HintRec)
    (hfit : ∀ r ∈ rs, r.Fits L) (b : Nat) (hb : b ≤ 255) (tree : HTree) :
    ∃ s, scanHintFile L tree (b : Int) (some (encodeAll L rs)) = some s ∧
      ∀ k, s.tree k =
        match lastRecord rs k with
        | none => tree k
        | some r =>
          if r.version > 0 then
            some { pos := (r.pos <<< 8) ||| b, hash := r.hash, ver := r.version }
          else none := by
  obtain ⟨rd, h⟩ := scanHintFile_complete L rs hfit tree (b : Int)
  refine ⟨_, h, ?_⟩
  intro k
  show applyCalls tree (rs.map (recordCall (b : Int))) k = _
  rw [applyCalls_last]
  cases hl : lastRecord rs k with
  | none => rfl
  | some r =>
    have hmem : r ∈ rs := by
      have : r ∈ rs.filter (fun r => decide (r.key = k)) :=
        List.mem_of_getLast?_eq_some (by simpa [lastRecord] using hl)
      exact (List.mem_filter.mp this).1
    simp only [scanPos_eq (fits_pos_lt hpw (hfit r hmem)) hb]

/-- Witness of C2: the records (a,10,1), (b,20,1), (a,30,2) and a tombstone
for c, scanned with bucket 5 into an index that holds c. -/
theorem scanHintFile_last_record_wins_witness :
    beansdbLayout.pw ≤ 3 ∧
    (∀ r ∈ [(⟨[97], 10, 1, 7, 0⟩ : HintRec), ⟨[98], 20, 1, 8, 0⟩, ⟨[97], 30, 2, 9, 0⟩,
        ⟨[99], 40, 0, 3, 0⟩], r.Fits beansdbLayout) ∧
    5 ≤ 255 ∧
    ∃ s, scanHintFile beansdbLayout
        (fun k => if k = [99] then some { pos := 1, hash := 2, ver := 3 } else none)
        ((5 : Nat) : Int)
        (some (encodeAll beansdbLayout [(⟨[97], 10, 1, 7, 0⟩ : HintRec), ⟨[98], 20, 1, 8, 0⟩,
          ⟨[97], 30, 2, 9, 0⟩, ⟨[99], 40, 0, 3, 0⟩])) = some s ∧
      ∀ k, s.tree k =
        match lastRecord [(⟨[97], 10, 1, 7, 0⟩ : HintRec), ⟨[98], 20, 1, 8, 0⟩,
          ⟨[97], 30, 2, 9, 0⟩, ⟨[99], 40, 0, 3, 0⟩] k with
        | none => (fun k => if k = [99] then some { pos := 1, hash := 2, ver := 3 } else none) k
        | some r =>
          if r.version > 0 then
            some { pos := (r.pos <<< 8) ||| 5, hash := r.hash, ver := r.version }
          else none :=
  ⟨by decide, by decide, by decide,
    scanHintFile_last_record_wins beansdbLayout (by decide) _ (by decide) 5 (by decide) _⟩

theorem isDeleted_eq_superseded {rpos b : Nat} (hp : rpos < 2 ^ 24) (hb : b ≤ 255)
    (tree : HTree) (r : HintRec) (hr : r.pos = rpos) :
    isDeleted (tree r.key) r.pos (b : Int) = superseded tree b r := by
  unfold isDeleted superseded
  subst hr
  cases tree r.key with
  | none => rfl
  | some it => simp only [countPos_eq hp hb]

/-- C3: for a hint range that is a concatenation of complete records, any
index and a bucket id in [0,255], `count_deleted_record` returns; `*total` is
the number of records; the return value is the number of records whose key has
no index entry, or an entry at another position than `(stored pos << 8) |
bucket`, or an entry of version `≤ 0`; the index is unchanged.  When the hint
file cannot be opened the function returns 0 and `*total` is 0. -/
theorem count_deleted_record_counts (L : HintLayout) (hpw : L.pw ≤ 3) (rs : List HintRec)
    (hfit : ∀ r ∈ rs, r.Fits L) (b : Nat) (hb : b ≤ 255) (tree : HTree) :
    (∃ c, count_deleted_record L tree (b : Int) (some (encodeAll L rs)) = some c ∧
      c.total = rs.length ∧ c.deleted = rs.countP (superseded tree b) ∧ c.tree = tree) ∧
    (∃ c, count_deleted_record L tree (b : Int) none = some c ∧
      c.total = 0 ∧ c.deleted = 0 ∧ c.tree = tree) := by
  constructor
  · obtain ⟨rd, h⟩ := count_complete L rs hfit tree (b : Int)
    refine ⟨_, h, rfl, ?_, rfl⟩
    show rs.countP (fun r => isDeleted (tree r.key) r.pos (b : Int)) = _
    apply List.countP_congr
    intro r hr
    rw [isDeleted_eq_superseded (fits_pos_lt hpw (hfit r hr)) hb tree r rfl]
  · exact ⟨_, rfl, rfl, rfl, rfl⟩

/-- Witness of C3: the audit of (a,10,1), (b,20,1), (a,30,2) with bucket 5
against the index that a scan of these records builds. -/
theorem count_deleted_record_counts_witness :
    beansdbLayout.pw ≤ 3 ∧
    (∀ r ∈ [(⟨[97], 10, 1, 7, 0⟩ : HintRec), ⟨[98], 20, 1, 8, 0⟩, ⟨[97], 30, 2, 9, 0⟩],
        r.Fits beansdbLayout) ∧
    5 ≤ 255 ∧
    ((∃ c, count_deleted_record beansdbLayout
        (fun k => if k = [97] then some { pos := 7685, hash := 9, ver := 2 }
          else if k = [98] then some { pos := 5125, hash := 8, ver := 1 } else none)
        ((5 : Nat) : Int)
        (some (encodeAll beansdbLayout [(⟨[97], 10, 1, 7, 0⟩ : HintRec), ⟨[98], 20, 1, 8, 0⟩,
          ⟨[97], 30, 2, 9, 0⟩])) = some c ∧
      c.total = [(⟨[97], 10, 1, 7, 0⟩ : HintRec), ⟨[98], 20, 1, 8, 0⟩,
          ⟨[97], 30, 2, 9, 0⟩].length ∧
      c.deleted = [(⟨[97], 10, 1, 7, 0⟩ : HintRec), ⟨[98], 20, 1, 8, 0⟩,
          ⟨[97], 30, 2, 9, 0⟩].countP
        (superseded (fun k => if k = [97] then some { pos := 7685, hash := 9, ver := 2 }
          else if k = [98] then some { pos := 5125, hash := 8, ver := 1 } else none) 5) ∧
      c.tree = (fun k => if k = [97] then some { pos := 7685, hash := 9, ver := 2 }
          else if k = [98] then some { pos := 5125, hash := 8, ver := 1 } else none)) ∧
     (∃ c, count_deleted_record beansdbLayout
        (fun k => if k = [97] then some { pos := 7685, hash := 9, ver := 2 }
          else if k = [98] then some { pos := 5125, hash := 8, ver := 1 } else none)
        ((5 : Nat) : Int) none = some c ∧
      c.total = 0 ∧ c.deleted = 0 ∧
      c.tree = (fun k => if k = [97] then some { pos := 7685, hash := 9, ver := 2 }
          else if k = [98] then some { pos := 5125, hash := 8, ver := 1 } else none))) :=
  ⟨by decide, by decide, by decide,
    count_deleted_record_counts beansdbLayout (by decide) _ (by decide) 5 (by decide) _⟩

/-- C4: for a concatenation of complete records cut at any offset `t`, the
scan of the first `t` bytes returns, and the calls it made to the index are
exactly the upserts and removals of the records that lie wholly inside the
first `t` bytes, in file order; the resulting index equals the one that a scan
of just those complete records produces, and the total reported by
`count_deleted_record` over the cut range is their number. -/
theorem scan_cut_applies_whole_records (L : HintLayout) (rs : List HintRec)
    (hfit : ∀ r ∈ rs, r.Fits L) (t : Nat) (tree : HTree) (bucket : Int) :
    ∃ s s0 c,
      scanHintFile L tree bucket (some ((encodeAll L rs).take t)) = some s ∧
      scanHintFile L tree bucket (some (encodeAll L (wholeRecords L rs t))) = some s0 ∧
      count_deleted_record L tree bucket (some ((encodeAll L rs).take t)) = some c ∧
      s.calls = (wholeRecords L rs t).map (recordCall bucket) ∧
      s.tree = applyCalls tree s.calls ∧
      s.tree = s0.tree ∧
      c.total = (wholeRecords L rs t).length := by
  obtain ⟨rd, tr, h⟩ := scanHintFile_cut L rs hfit t tree bucket
  obtain ⟨rd0, h0⟩ := scanHintFile_complete L _ (wholeRecords_fits L rs t hfit) tree bucket
  obtain ⟨d, rdc, trc, hc⟩ := count_cut L rs hfit t tree bucket
  exact ⟨_, _, _, h, h0, hc, rfl, rfl, rfl, rfl⟩

/-- Witness of C4: three records of 12 bytes each, cut at byte 30, in the
middle of the third. -/
theorem scan_cut_applies_whole_records_witness :
    (∀ r ∈ [(⟨[97], 10, 1, 7, 0⟩ : HintRec), ⟨[98], 20, 1, 8, 0⟩, ⟨[97], 30, 2, 9, 0⟩],
        r.Fits beansdbLayout) ∧
    ∃ s s0 c,
      scanHintFile beansdbLayout (fun _ => none) 5
        (some ((encodeAll beansdbLayout [(⟨[97], 10, 1, 7, 0⟩ : HintRec),
          ⟨[98], 20, 1, 8, 0⟩, ⟨[97], 30, 2, 9, 0⟩]).take 30)) = some s ∧
      scanHintFile beansdbLayout (fun _ => none) 5
        (some (encodeAll beansdbLayout (wholeRecords beansdbLayout
          [(⟨[97], 10, 1, 7, 0⟩ : HintRec), ⟨[98], 20, 1, 8, 0⟩, ⟨[97], 30, 2, 9, 0⟩] 30)))
        = some s0 ∧
      count_deleted_record beansdbLayout (fun _ => none) 5
        (some ((encodeAll beansdbLayout [(⟨[97], 10, 1, 7, 0⟩ : HintRec),
          ⟨[98], 20, 1, 8, 0⟩, ⟨[97], 30, 2, 9, 0⟩]).take 30)) = some c ∧
      s.calls = (wholeRecords beansdbLayout
          [(⟨[97], 10, 1, 7, 0⟩ : HintRec), ⟨[98], 20, 1, 8, 0⟩, ⟨[97], 30, 2, 9, 0⟩] 30).map
        (recordCall 5) ∧
      s.tree = applyCalls (fun _ => none) s.calls ∧
      s.tree = s0.tree ∧
      c.total = (wholeRecords beansdbLayout
          [(⟨[97], 10, 1, 7, 0⟩ : HintRec), ⟨[98], 20, 1, 8, 0⟩, ⟨[97], 30, 2, 9, 0⟩] 30).length :=
  ⟨by decide, scan_cut_applies_whole_records beansdbLayout _ (by decide) 30 (fun _ => none) 5⟩

/-! ## Claims about the mapped-megabyte total -/

/-- C7: in a sequential run of `open_mfile` and `close_mfile` calls in which
every returned handle is later closed exactly once (no handle is open at the
end), `curr_mmap_size` ends at the value it started from.  Call by call: an
`open_mfile` that returns a handle adds `st_size >> 20`, the `close_mfile` of
that handle subtracts the same amount, and an `open_mfile` that returns `NULL`
(failure of open, fstat or mmap) leaves the total as it was. -/
theorem mmap_total_restored (c0 : Int) (ops : List MOp) (s : MState)
    (hrun : MState.run { curr := c0, live := [] } ops = some s) (hclosed : s.live = []) :
    s.curr = c0 ∧
    ∀ (curr : Int) (f : OsFile),
      match open_mfile curr f with
      | (Outcome.ret (some h), c) =>
        f.st_size = some h.size ∧ c = curr + ((h.size >>> 20 : Nat) : Int) ∧
          close_mfile c h = curr
      | (Outcome.ret none, c) => c = curr
      | (_, _) => True := by
  constructor
  · have h := run_counter ops _ s hrun
    rw [hclosed] at h
    simpa [mappedMb] using h
  · intro curr f
    have h := open_mfile_counter curr f
    generalize open_mfile curr f = r at h
    obtain ⟨o, c⟩ := r
    cases o with
    | ret a =>
      cases a with
      | none => exact h
      | some hd =>
        refine ⟨h.2.1, h.1, ?_⟩
        simp only [close_mfile, h.1]
        omega
    | blocked => trivial
    | exited => trivial

/-- Witness of C7: a 5 MB file and a 300 MB file are opened, the first is
closed, an open fails in mmap, the second is closed. -/
theorem mmap_total_restored_witness :
    MState.run { curr := 7, live := [] }
        [MOp.openOp ⟨true, some 5242880, true⟩, MOp.openOp ⟨true, some 314572800, true⟩,
         MOp.closeOp 0, MOp.openOp ⟨true, some 1048576, false⟩, MOp.closeOp 0]
      = some { curr := 7, live := [] } ∧
    (({ curr := 7, live := [] } : MState).curr = 7 ∧
      ∀ (curr : Int) (f : OsFile),
        match open_mfile curr f with
        | (Outcome.ret (some h), c) =>
          f.st_size = some h.size ∧ c = curr + ((h.size >>> 20 : Nat) : Int) ∧
            close_mfile c h = curr
        | (Outcome.ret none, c) => c = curr
        | (_, _) => True) :=
  ⟨by decide,
    mmap_total_restored 7
      [MOp.openOp ⟨true, some 5242880, true⟩, MOp.openOp ⟨true, some 314572800, true⟩,
       MOp.closeOp 0, MOp.openOp ⟨true, some 1048576, false⟩, MOp.closeOp 0]
      { curr := 7, live := [] } (by decide) rfl⟩

/-- C8, as stated, fails: 41 files of 100 MB each are mapped without waiting
and leave the total at 4100 MB, above the ceiling of 4096. -/
theorem mmap_total_exceeds_ceiling :
    (MState.run { curr := 0, live := [] }
        (List.replicate 41 (MOp.openOp ⟨true, some 104857600, true⟩))).map (fun s => s.curr)
      = some 4100 ∧ ¬ ((4100 : Int) ≤ MAX_MMAP_SIZE) := by
  decide

/-- C8, amended: when `open_mfile` returns a mapping of a file of more than
100 MB (`st_size >> 20 > 100`), the total after the call is at most
`MAX_MMAP_SIZE`; a file of at most 100 MB is mapped without the test and
raises the total by its own megabytes. -/
theorem open_large_within_ceiling (curr : Int) (f : OsFile) (h : MFile) (c : Int)
    (hopen : open_mfile curr f = (Outcome.ret (some h), c)) :
    c = curr + ((h.size >>> 20 : Nat) : Int) ∧
    (100 < ((h.size >>> 20 : Nat) : Int) → c ≤ MAX_MMAP_SIZE) := by
  have hc := open_mfile_counter curr f
  rw [hopen] at hc
  exact ⟨hc.1, hc.2.2⟩

/-- Witness of C8 amended: a 200 MB file opened with 3000 MB mapped. -/
theorem open_large_within_ceiling_witness :
    open_mfile 3000 ⟨true, some 209715200, true⟩
      = (Outcome.ret (some { size := 209715200, mapped := true }), 3200) ∧
    ((3200 : Int) = 3000 + ((((209715200 : Nat) >>> 20 : Nat)) : Int) ∧
     (100 < ((((209715200 : Nat) >>> 20 : Nat)) : Int) → (3200 : Int) ≤ MAX_MMAP_SIZE)) :=
  ⟨by decide, open_large_within_ceiling 3000 ⟨true, some 209715200, true⟩
    { size := 209715200, mapped := true } 3200 (by decide)⟩

/-! ## The hint codec -/

theorem tmpPath_ne (path : Path) : tmpPath path ≠ path := by
  intro h
  have := congrArg List.length h
  simp [tmpPath] at this

theorem path_ne_tmpPath (path : Path) : path ≠ tmpPath path := fun h => tmpPath_ne path h.symm

/-- For a path of at least four characters the suffix test does not look at
what lies before the string. -/
theorem hasQlzSuffix_long (before : List Char) (path : Path) (h : 4 ≤ path.length) :
    hasQlzSuffix before path = hasQlzSuffix [] path := by
  unfold hasQlzSuffix
  have e : (before ++ path).drop ((before ++ path).length - 4)
      = path.drop (path.length - 4) := by
    have : (before ++ path).length - 4 = before.length + (path.length - 4) := by
      simp only [List.length_append]
      omega
    rw [this, List.drop_append]
  rw [e]
  simp

/-- After a full write the destination holds the bytes handed to `fwrite`. -/
theorem write_hint_file_full (q : Qlz) (env : WriteEnv) (fs : FS) (buf : List Nat)
    (size : Nat) (path : Path)
    (hfull : env.FullWrite (bytesRequested q (hasQlzSuffix env.pathBefore path) buf size)) :
    write_hint_file q env fs buf size path
      = (mgr_rename (mgr_unlink (fs.set (tmpPath path)
            (some ((writeData q (hasQlzSuffix env.pathBefore path) buf size).take
              (bytesRequested q (hasQlzSuffix env.pathBefore path) buf size)))) path)
            (tmpPath path) path,
         [FsCall.fopen (tmpPath path),
          FsCall.fwrite (tmpPath path)
            (bytesRequested q (hasQlzSuffix env.pathBefore path) buf size)
            (bytesRequested q (hasQlzSuffix env.pathBefore path) buf size),
          FsCall.fclose (tmpPath path) true, FsCall.unlink path,
          FsCall.rename (tmpPath path) path]) := by
  obtain ⟨hopen, hw, hd⟩ := hfull
  have hs : bytesStored env (bytesRequested q (hasQlzSuffix env.pathBefore path) buf size)
      = bytesRequested q (hasQlzSuffix env.pathBefore path) buf size := by
    unfold bytesStored
    omega
  unfold write_hint_file
  simp only [hopen, hw, hs]
  simp

theorem write_hint_file_dest (q : Qlz) (env : WriteEnv) (fs : FS) (buf : List Nat)
    (size : Nat) (path : Path)
    (hfull : env.FullWrite (bytesRequested q (hasQlzSuffix env.pathBefore path) buf size)) :
    (write_hint_file q env fs buf size path).1 path
      = some ((writeData q (hasQlzSuffix env.pathBefore path) buf size).take
          (bytesRequested q (hasQlzSuffix env.pathBefore path) buf size)) := by
  rw [write_hint_file_full q env fs buf size path hfull]
  simp [mgr_rename, mgr_unlink, FS.set, tmpPath_ne, path_ne_tmpPath]

/-- What decides the replacement in the code: the destination is unlinked and
the temporary file renamed over it if and only if `fopen` succeeded and the
return value of `fwrite` is the number of bytes requested, whatever `fclose`
answers; otherwise no unlink and no rename is made and the destination is
what it was. -/
theorem replaces_iff_fwrite_returns_all (q : Qlz) (env : WriteEnv) (fs : FS) (buf : List Nat)
    (size : Nat) (path : Path) :
    ((∃ pre, (write_hint_file q env fs buf size path).2
          = pre ++ [FsCall.unlink path, FsCall.rename (tmpPath path) path]) ↔
      (env.fopenOk = true ∧
        bytesWritten env (bytesRequested q (hasQlzSuffix env.pathBefore path) buf size)
          = bytesRequested q (hasQlzSuffix env.pathBefore path) buf size)) ∧
    (¬ (env.fopenOk = true ∧
        bytesWritten env (bytesRequested q (hasQlzSuffix env.pathBefore path) buf size)
          = bytesRequested q (hasQlzSuffix env.pathBefore path) buf size) →
      (∀ c ∈ (write_hint_file q env fs buf size path).2, c.replaces = false) ∧
      (write_hint_file q env fs buf size path).1 path = fs path) := by
  by_cases hopen : env.fopenOk = true
  · by_cases hfull : bytesWritten env
        (bytesRequested q (hasQlzSuffix env.pathBefore path) buf size)
        = bytesRequested q (hasQlzSuffix env.pathBefore path) buf size
    · refine ⟨⟨fun _ => ⟨hopen, hfull⟩, fun _ => ?_⟩, fun hn => absurd ⟨hopen, hfull⟩ hn⟩
      unfold write_hint_file
      simp only [hopen, hfull]
      exact ⟨[_, _, _], rfl⟩
    · have e : write_hint_file q env fs buf size path
          = (fs.set (tmpPath path)
                (some ((writeData q (hasQlzSuffix env.pathBefore path) buf size).take
                  (bytesStored env (bytesWritten env
                    (bytesRequested q (hasQlzSuffix env.pathBefore path) buf size))))),
             [FsCall.fopen (tmpPath path),
              FsCall.fwrite (tmpPath path)
                (bytesRequested q (hasQlzSuffix env.pathBefore path) buf size)
                (bytesWritten env
                  (bytesRequested q (hasQlzSuffix env.pathBefore path) buf size)),
              FsCall.fclose (tmpPath path)
                (decide (bytesStored env (bytesWritten env
                    (bytesRequested q (hasQlzSuffix env.pathBefore path) buf size))
                  = bytesWritten env
                    (bytesRequested q (hasQlzSuffix env.pathBefore path) buf size)))]) := by
        unfold write_hint_file
        simp only [hopen]
        simp [hfull]
      rw [e]
      refine ⟨⟨fun ⟨pre, hp⟩ => ?_, fun h => absurd h.2 hfull⟩, fun _ => ⟨?_, ?_⟩⟩
      · exfalso
        have hl := congrArg List.getLast? hp
        simp at hl
      · intro c hc
        simp only [List.mem_cons, List.mem_singleton, List.not_mem_nil, or_false] at hc
        rcases hc with h | h | h <;> rw [h] <;> rfl
      · simp [FS.set, path_ne_tmpPath]
  · have hf : env.fopenOk = false := by simpa using hopen
    have e : write_hint_file q env fs buf size path = (fs, [FsCall.fopen (tmpPath path)]) := by
      unfold write_hint_file
      simp [hf]
    rw [e]
    refine ⟨⟨fun ⟨pre, hp⟩ => ?_, fun h => absurd h.1 hopen⟩, fun _ => ⟨?_, rfl⟩⟩
    · exfalso
      have hl := congrArg List.getLast? hp
      simp at hl
    · intro c hc
      simp at hc
      rw [hc]
      rfl

/-! ## Claims about the hint codec -/

/-- C6: the code replaces the destination after a write that did not reach
the file.  `write_hint_file` of three bytes to "a.hint", where `fwrite` takes
the three bytes and the flush of `fclose` fails with none of them in the file:
the return value of `fwrite` equals the size, the result of `fclose` is not
looked at, so `mgr_unlink` and `mgr_rename` are called and the destination,
which held one byte, is the empty temporary file. -/
theorem write_replaces_after_failed_flush :
    (write_hint_file markerQlz
        { fopenOk := true, canWrite := 3, onDisk := 0, pathBefore := [] }
        (fun p => if p = ['a', '.', 'h', 'i', 'n', 't'] then some [9] else none)
        [1, 2, 3] 3 ['a', '.', 'h', 'i', 'n', 't']).2
      = [FsCall.fopen ['a', '.', 'h', 'i', 'n', 't', '.', 't', 'm', 'p'],
         FsCall.fwrite ['a', '.', 'h', 'i', 'n', 't', '.', 't', 'm', 'p'] 3 3,
         FsCall.fclose ['a', '.', 'h', 'i', 'n', 't', '.', 't', 'm', 'p'] false,
         FsCall.unlink ['a', '.', 'h', 'i', 'n', 't'],
         FsCall.rename ['a', '.', 'h', 'i', 'n', 't', '.', 't', 'm', 'p']
           ['a', '.', 'h', 'i', 'n', 't']] ∧
    (write_hint_file markerQlz
        { fopenOk := true, canWrite := 3, onDisk := 0, pathBefore := [] }
        (fun p => if p = ['a', '.', 'h', 'i', 'n', 't'] then some [9] else none)
        [1, 2, 3] 3 ['a', '.', 'h', 'i', 'n', 't']).1 ['a', '.', 'h', 'i', 'n', 't']
      = some [] := by
  decide

/-- The answers of the operating system for the destination of a full
write. -/
theorem osFileOf_after_write (q : Qlz) (wenv : WriteEnv) (oenv : OpenEnv) (fs : FS)
    (buf : List Nat) (path : Path)
    (hfull : wenv.FullWrite
      (bytesRequested q (hasQlzSuffix wenv.pathBefore path) buf buf.length)) :
    (write_hint_file q wenv fs buf buf.length path).1 path
      = some (writeData q (hasQlzSuffix wenv.pathBefore path) buf buf.length) ∧
    osFileOf (write_hint_file q wenv fs buf buf.length path).1 oenv path
      = { openOk := oenv.openOk,
          st_size := if oenv.fstatOk then
            some (writeData q (hasQlzSuffix wenv.pathBefore path) buf buf.length).length
            else none,
          mmapOk := oenv.mmapOk } := by
  have hreq : bytesRequested q (hasQlzSuffix wenv.pathBefore path) buf buf.length
      = (writeData q (hasQlzSuffix wenv.pathBefore path) buf buf.length).length := by
    unfold bytesRequested writeData
    split <;> simp
  have hdest := write_hint_file_dest q wenv fs buf buf.length path hfull
  rw [hreq, List.take_length] at hdest
  exact ⟨hdest, by simp [osFileOf, hdest]⟩

/-- After a full write to a model file system, `open_hint` of the destination
waits for ever when the file has more than 100 MB and does not fit under the
ceiling. -/
theorem open_hint_waits (q : Qlz) (wenv : WriteEnv) (oenv : OpenEnv) (fs : FS)
    (buf : List Nat) (path : Path) (curr : Int)
    (hfull : wenv.FullWrite
      (bytesRequested q (hasQlzSuffix wenv.pathBefore path) buf buf.length))
    (hfs : oenv.ModelFs)
    (hwait : curr + (((writeData q (hasQlzSuffix wenv.pathBefore path) buf
          buf.length).length >>> 20 : Nat) : Int) > MAX_MMAP_SIZE ∧
      (((writeData q (hasQlzSuffix wenv.pathBefore path) buf buf.length).length >>> 20 : Nat)
        : Int) > 100) :
    (open_hint q oenv wenv
        { fs := (write_hint_file q wenv fs buf buf.length path).1, curr_mmap_size := curr }
        path none).1 = Outcome.blocked := by
  obtain ⟨_, hos⟩ := osFileOf_after_write q wenv oenv fs buf path hfull
  obtain ⟨ho, hf, _⟩ := hfs
  have hmf : open_mfile curr (osFileOf (write_hint_file q wenv fs buf buf.length path).1
      oenv path) = (Outcome.blocked, curr) := by
    rw [hos]
    unfold open_mfile
    simp only [ho, hf, Bool.true_eq_false, if_false, if_true]
    rw [if_pos hwait]
  unfold open_hint
  simp only [hmf]


/-- A buffer of 101 MB written in full to "big.hint" and opened with 4000 MB
mapped: `open_hint` waits. -/
theorem open_hint_waits_101mb (buf : List Nat) (hlen : buf.length = 105906176) :
    (open_hint markerQlz ⟨true, true, true, []⟩ ⟨true, 105906176, 105906176, []⟩
        { fs := (write_hint_file markerQlz ⟨true, 105906176, 105906176, []⟩ (fun _ => none)
            buf buf.length ['b', 'i', 'g', '.', 'h', 'i', 'n', 't']).1,
          curr_mmap_size := 4000 }
        ['b', 'i', 'g', '.', 'h', 'i', 'n', 't'] none).1 = Outcome.blocked := by
  have hs : hasQlzSuffix [] ['b', 'i', 'g', '.', 'h', 'i', 'n', 't'] = false := by decide
  have hr : bytesRequested markerQlz false buf buf.length = 105906176 := by
    unfold bytesRequested
    rw [if_neg (by simp), hlen]
  have hd : (writeData markerQlz false buf buf.length).length = 105906176 := by
    unfold writeData
    rw [if_neg (by simp), List.take_length, hlen]
  apply open_hint_waits
  · show WriteEnv.FullWrite _ (bytesRequested markerQlz
      (hasQlzSuffix [] ['b', 'i', 'g', '.', 'h', 'i', 'n', 't']) _ _)
    rw [hs, hr]
    decide
  · decide
  · show (4000 : Int) + (((writeData markerQlz
        (hasQlzSuffix [] ['b', 'i', 'g', '.', 'h', 'i', 'n', 't']) _ _).length >>> 20 : Nat)
        : Int) > MAX_MMAP_SIZE ∧ _
    rw [hs, hd]
    decide

/-- C5, as stated, fails in two ways.  First, `open_hint` does not return
when it has to wait for the mapped-megabyte budget: after a full write of a
buffer of 101 MB to "big.hint", with 4000 MB mapped by others, `open_mfile`
stays in its waiting loop.  Second, for a path of fewer than four characters
the suffix test reads the memory before the string: the three bytes written
to "qlz" with a '.' in front of the string are compressed, and an `open_hint`
of "qlz" with nothing in front of the string returns the four compressed
bytes. -/
theorem roundtrip_fails_on_wait_and_short_path :
    ((⟨true, 105906176, 105906176, []⟩ : WriteEnv).FullWrite 105906176 ∧
      (open_hint markerQlz ⟨true, true, true, []⟩ ⟨true, 105906176, 105906176, []⟩
          { fs := (write_hint_file markerQlz ⟨true, 105906176, 105906176, []⟩ (fun _ => none)
              (List.replicate 105906176 0) (List.replicate 105906176 0).length
              ['b', 'i', 'g', '.', 'h', 'i', 'n', 't']).1,
            curr_mmap_size := 4000 }
          ['b', 'i', 'g', '.', 'h', 'i', 'n', 't'] none).1 = Outcome.blocked) ∧
    ((⟨true, 10, 10, ['.']⟩ : WriteEnv).FullWrite 4 ∧
      (open_hint markerQlz ⟨true, true, true, []⟩ ⟨true, 10, 10, ['.']⟩
          { fs := (write_hint_file markerQlz ⟨true, 10, 10, ['.']⟩ (fun _ => none)
              [1, 2, 3] 3 ['q', 'l', 'z']).1,
            curr_mmap_size := 0 }
          ['q', 'l', 'z'] none).1
        = Outcome.ret (some { f := { size := 4, mapped := true },
                              buf := [1, 1, 2, 3], size := 4 })) := by
  exact ⟨⟨by decide, open_hint_waits_101mb _ (List.length_replicate _ _)⟩, by decide, by decide⟩


/-- C5, amended: over a model file system, with a lossless compression
collaborator whose container is not empty for a buffer that is not empty, for
every buffer `buf` and every destination path of at least four characters,
with or without the ".qlz" suffix: after `write_hint_file(buf, size, path)`
completes a full write, `open_hint(path, NULL)`, unless it has to wait for the
mapped-megabyte budget, returns a hint file whose size is the length of `buf`
and whose bytes are those of `buf`. -/
theorem hint_roundtrip (q : Qlz) (hq : q.Lossless) (hne : q.NonEmptyOutput)
    (buf : List Nat) (path : Path) (hlen : 4 ≤ path.length) (fs : FS) (curr : Int)
    (wenv : WriteEnv) (oenv : OpenEnv)
    (hfull : wenv.FullWrite
      (bytesRequested q (hasQlzSuffix wenv.pathBefore path) buf buf.length))
    (hfs : oenv.ModelFs)
    (hroom : ¬ (curr + (((writeData q (hasQlzSuffix wenv.pathBefore path) buf
          buf.length).length >>> 20 : Nat) : Int) > MAX_MMAP_SIZE ∧
      (((writeData q (hasQlzSuffix wenv.pathBefore path) buf buf.length).length >>> 20 : Nat)
        : Int) > 100)) :
    ∃ h st, open_hint q oenv wenv
        { fs := (write_hint_file q wenv fs buf buf.length path).1, curr_mmap_size := curr }
        path none = (Outcome.ret (some h), st) ∧
      h.size = buf.length ∧ h.buf = buf := by
  obtain ⟨hdest, hos⟩ := osFileOf_after_write q wenv oenv fs buf path hfull
  obtain ⟨ho, hf, hm⟩ := hfs
  have hsuf : hasQlzSuffix oenv.pathBefore path = hasQlzSuffix wenv.pathBefore path := by
    rw [hasQlzSuffix_long _ _ hlen, hasQlzSuffix_long wenv.pathBefore _ hlen]
  generalize (write_hint_file q wenv fs buf buf.length path).1 = fs1 at hdest hos
  generalize hd : writeData q (hasQlzSuffix wenv.pathBefore path) buf buf.length = dst
    at hdest hos hroom
  have hmf : open_mfile curr (osFileOf fs1 oenv path)
      = (Outcome.ret (some { size := dst.length, mapped := decide (dst.length > 0) }),
          curr + ((dst.length >>> 20 : Nat) : Int)) := by
    rw [hos]
    unfold open_mfile
    simp only [ho, hf, hm, Bool.true_eq_false, if_false, if_true]
    rw [if_neg hroom]
    by_cases hz : dst.length > 0
    · simp [hz]
    · simp [hz]
  unfold open_hint
  simp only [hmf, hdest, Option.getD_some, hsuf]
  by_cases hqz : hasQlzSuffix wenv.pathBefore path = true
  · have hdq : dst = q.compress buf := by
      rw [← hd]; simp [writeData, hqz]
    by_cases hz : dst.length > 0
    · rw [if_pos ⟨hqz, hz⟩]
      have h1 := (hq buf).1
      have h2 := (hq buf).2
      rw [← hdq] at h1 h2
      rw [if_neg (by rw [h1, h2]; simp)]
      exact ⟨_, _, rfl, h2, h1⟩
    · rw [if_neg (fun h => hz h.2)]
      have hde : dst = [] := List.length_eq_zero.mp (by omega)
      have hbe : buf = [] := by
        by_contra hb
        exact hne buf hb (by rw [← hdq, hde])
      exact ⟨_, _, rfl, by simp [hde, hbe], by rw [hde, hbe]⟩
  · have hdq : dst = buf := by
      rw [← hd]; simp [writeData, hqz]
    rw [if_neg (fun h => hqz h.1)]
    exact ⟨_, _, rfl, by simp [hdq], hdq⟩

/-- Witness of C5 amended: three bytes written to "h.qlz" through the marker
collaborator and read back, and the same to "h.hint". -/
theorem hint_roundtrip_witness :
    markerQlz.Lossless ∧ markerQlz.NonEmptyOutput ∧
    (⟨true, 100, 100, []⟩ : WriteEnv).FullWrite
      (bytesRequested markerQlz
        (hasQlzSuffix (⟨true, 100, 100, []⟩ : WriteEnv).pathBefore ['h', '.', 'q', 'l', 'z'])
        [1, 2, 3] [1, 2, 3].length) ∧
    (⟨true, true, true, []⟩ : OpenEnv).ModelFs ∧
    (∃ h st, open_hint markerQlz ⟨true, true, true, []⟩ ⟨true, 100, 100, []⟩
        { fs := (write_hint_file markerQlz ⟨true, 100, 100, []⟩ (fun _ => none) [1, 2, 3]
            [1, 2, 3].length ['h', '.', 'q', 'l', 'z']).1, curr_mmap_size := 0 }
        ['h', '.', 'q', 'l', 'z'] none = (Outcome.ret (some h), st) ∧
      h.size = [1, 2, 3].length ∧ h.buf = [1, 2, 3]) ∧
    (∃ h st, open_hint markerQlz ⟨true, true, true, []⟩ ⟨true, 100, 100, []⟩
        { fs := (write_hint_file markerQlz ⟨true, 100, 100, []⟩ (fun _ => none) [1, 2, 3]
            [1, 2, 3].length ['h', '.', 'h', 'i', 'n', 't']).1, curr_mmap_size := 0 }
        ['h', '.', 'h', 'i', 'n', 't'] none = (Outcome.ret (some h), st) ∧
      h.size = [1, 2, 3].length ∧ h.buf = [1, 2, 3]) :=
  ⟨fun _ => ⟨rfl, rfl⟩, fun _ _ => by simp [markerQlz], by decide, by decide,
    hint_roundtrip markerQlz (fun _ => ⟨rfl, rfl⟩) (fun _ _ => by simp [markerQlz])
      [1, 2, 3] ['h', '.', 'q', 'l', 'z'] (by decide) (fun _ => none) 0
      ⟨true, 100, 100, []⟩ ⟨true, true, true, []⟩ (by decide) (by decide) (by decide),
    hint_roundtrip markerQlz (fun _ => ⟨rfl, rfl⟩) (fun _ _ => by simp [markerQlz])
      [1, 2, 3] ['h', '.', 'h', 'i', 'n', 't'] (by decide) (fun _ => none) 0
      ⟨true, 100, 100, []⟩ ⟨true, true, true, []⟩ (by decide) (by decide) (by decide)⟩

/-- The round trip evaluated: the file written to "h.qlz" holds the marker
byte and the three bytes, and `open_hint` returns the three bytes. -/
theorem scenario_roundtrip :
    (write_hint_file markerQlz ⟨true, 100, 100, []⟩ (fun _ => none) [1, 2, 3] 3
        ['h', '.', 'q', 'l', 'z']).1 ['h', '.', 'q', 'l', 'z'] = some [1, 1, 2, 3] ∧
    (open_hint markerQlz ⟨true, true, true, []⟩ ⟨true, 100, 100, []⟩
        { fs := (write_hint_file markerQlz ⟨true, 100, 100, []⟩ (fun _ => none) [1, 2, 3] 3
            ['h', '.', 'q', 'l', 'z']).1, curr_mmap_size := 0 }
        ['h', '.', 'q', 'l', 'z'] none).1
      = Outcome.ret (some { f := { size := 4, mapped := true }, buf := [1, 2, 3], size := 3 }) := by
  decide

/-! ## Claims about the connection table and the worker -/

/-- What holds under the epoll backend: from a loop that has the invariant,
`add_event` keeps it on its success path and on its failure path (and for
`fd >= AE_SETSIZE` returns `AE_ERR` and changes nothing; it aborts only when
the entry is occupied); `update_event` and `delete_event` keep it whenever
`epoll_ctl` succeeds or fails because the descriptor is not registered; after
any call of the two a non-empty entry still belongs to a registered
descriptor. -/
theorem epoll_table_invariant (cfg : AeConfig) (loop : EventLoop) (fd mask : Nat)
    (c : Conn) (fault : Option Fault) (hinv : TableInv cfg loop) :
    (match add_event cfg loop fd mask c fault with
      | none => (loop.conns fd).isSome = true
      | some (r, l) =>
        TableInv cfg l ∧ (cfg.AE_SETSIZE ≤ fd → r = cfg.AE_ERR ∧ l = loop)) ∧
    (TableSound cfg (update_event cfg loop fd mask c fault).2 ∧
      (fault = none → TableInv cfg (update_event cfg loop fd mask c fault).2) ∧
      ((aeApiUpdateEvent cfg loop.reg fd mask fault).1 ≠ -1 →
        (update_event cfg loop fd mask c fault).1 = cfg.AE_OK ∧
        TableInv cfg (update_event cfg loop fd mask c fault).2)) ∧
    (TableSound cfg (delete_event cfg loop fd fault).2 ∧
      (fault = none → TableInv cfg (delete_event cfg loop fd fault).2) ∧
      ((delete_event cfg loop fd fault).1 = 0 →
        TableInv cfg (delete_event cfg loop fd fault).2)) :=
  ⟨add_event_inv cfg loop fd mask c fault hinv,
    update_event_inv cfg loop fd mask c fault hinv,
    delete_event_inv cfg loop fd fault hinv⟩


/-- With the kqueue backend `delete_event` of a descriptor of the table
returns 0 whatever `kevent` did: `aeApiDelEvent` does not look at its result. -/
theorem kqueue_delete_event_returns_zero (cfg : AeConfig) (named : Nat) (loop : EventLoop)
    (fd : Nat) (hfd : fd < cfg.AE_SETSIZE) :
    (Kqueue.delete_event cfg named loop fd).1 = 0 := by
  have hn : ¬ fd ≥ cfg.AE_SETSIZE := by omega
  simp [Kqueue.delete_event, hn, Kqueue.aeApiDelEvent]

/-- With the kqueue backend and a mask that has both interest bits,
`add_event` on a loop without registrations registers the descriptor and
fills its entry. -/
theorem kqueue_add_event_registers :
    (Kqueue.add_event sampleConfig emptyLoop 5 3 1 false false).map
        (fun r => (r.1, r.2.conns 5, r.2.reg 5))
      = some (sampleConfig.AE_OK, some 1, some 3) := by
  decide

/-- C11: for a list of index items whose keys have no NUL byte and whose
fields fit the fields of the record (the key length in particular),
`collect_items` applied to each item in turn, from an empty buffer large
enough for one record, returns a buffer whose first `p.curr` bytes are the
records of the items, one after the other, each of
`sizeof(HintRecord) - NAME_IN_RECORD + ksize + 1` bytes.  The scan of these
bytes with a bucket id `b` in [0,255] returns without truncation; the fields
it reads at the offset of each record are the item's key length, key, version
and hash, and the position it rebuilds is the item's position with its low 8
bits replaced by `b`; its calls to the index are those of the items, in
order.  With `b` the low byte of an item's position, the position is the
item's own. -/
theorem collect_items_scan_roundtrip (L : HintLayout) (items : List KeyedItem) (p : Param)
    (hcap : L.hdr + 256 ^ L.kw ≤ p.size) (hbuf : p.buf.length = p.size) (hcurr : p.curr = 0)
    (hnul : ∀ it ∈ items, ∀ x ∈ it.key, x ≠ 0)
    (hfit : ∀ it ∈ items, (itemRecord it).Fits L)
    (hpos : ∀ it ∈ items, it.pos < 2 ^ 32)
    (b : Nat) (hb : b ≤ 255) (tree : HTree) :
    ∃ p1 s, collectAll L items p = some p1 ∧
      p1.curr = (items.map (fun it => L.hdr + it.key.length + 1)).sum ∧
      p1.buf.take p1.curr = encodeAll L (items.map itemRecord) ∧
      scanHintFile L tree (b : Int) (some (p1.buf.take p1.curr)) = some s ∧
      s.truncated = none ∧
      s.calls = items.map (fun it =>
        if it.ver > 0 then IndexCall.add it.key (withLowByte it.pos b) it.hash it.ver
        else IndexCall.remove it.key) ∧
      (∀ xs it ys, items = xs ++ it :: ys →
        leVal (readBytes (p1.buf.take p1.curr)
            (xs.map (fun it => L.hdr + it.key.length + 1)).sum L.kw) = it.key.length ∧
        readBytes (p1.buf.take p1.curr)
            ((xs.map (fun it => L.hdr + it.key.length + 1)).sum + L.hdr) it.key.length
          = it.key ∧
        scanPos (leVal (readBytes (p1.buf.take p1.curr)
            ((xs.map (fun it => L.hdr + it.key.length + 1)).sum + L.kw) L.pw)) (b : Int)
          = withLowByte it.pos b ∧
        toSigned L.vw (leVal (readBytes (p1.buf.take p1.curr)
            ((xs.map (fun it => L.hdr + it.key.length + 1)).sum + L.kw + L.pw) L.vw))
          = it.ver ∧
        leVal (readBytes (p1.buf.take p1.curr)
            ((xs.map (fun it => L.hdr + it.key.length + 1)).sum + L.kw + L.pw + L.vw) L.hw)
          = it.hash) ∧
      (∀ it ∈ items, withLowByte it.pos (it.pos % 256) = it.pos) := by
  have hsum : ∀ l : List KeyedItem, ((l.map itemRecord).map (recSize L)).sum
      = (l.map (fun it => L.hdr + it.key.length + 1)).sum := by
    intro l
    rw [List.map_map]
    rfl
  have hk : ∀ it ∈ items, it.key.length < 256 ^ L.kw := fun it h => (hfit it h).1
  have hroom : ∀ it ∈ items, recSize L (itemRecord it) ≤ p.size := by
    intro it h
    have := hk it h
    show L.hdr + it.key.length + 1 ≤ p.size
    omega
  obtain ⟨p1, h1, hc1, ht1⟩ := collectAll_appends L items p hnul hk hroom hbuf (by omega)
  rw [hcurr, List.take_zero, List.nil_append] at ht1
  rw [hcurr, Nat.zero_add, hsum] at hc1
  have hrfit : ∀ r ∈ items.map itemRecord, r.Fits L := by
    intro r hr
    obtain ⟨it, hit, rfl⟩ := List.mem_map.mp hr
    exact hfit it hit
  obtain ⟨rd, hs⟩ := scanHintFile_complete L (items.map itemRecord) hrfit tree (b : Int)
  refine ⟨p1, _, h1, hc1, ht1, by rw [ht1]; exact hs, rfl, ?_, ?_, fun it _ => withLowByte_self it.pos⟩
  · show (items.map itemRecord).map (recordCall (b : Int)) = _
    rw [List.map_map]
    apply List.map_congr_left
    intro it hit
    exact recordCall_item it b (hpos it hit) hb
  · intro xs it ys hsplit
    have hmem : it ∈ items := by rw [hsplit]; simp
    have hdec := decode_fields L (encodeAll L (xs.map itemRecord))
      (encodeAll L (ys.map itemRecord)) (itemRecord it) (hfit it hmem)
    have henc : ∀ (as bs : List HintRec), encodeAll L (as ++ bs)
        = encodeAll L as ++ encodeAll L bs := by
      intro as bs
      induction as with
      | nil => rfl
      | cons a as ih => simp [encodeAll, ih, List.append_assoc]
    have hb1 : p1.buf.take p1.curr = encodeAll L (xs.map itemRecord)
        ++ encodeRecord L (itemRecord it) ++ encodeAll L (ys.map itemRecord) := by
      rw [ht1, hsplit, List.map_append, henc, List.map_cons]
      simp [encodeAll, List.append_assoc]
    have hoff : (encodeAll L (xs.map itemRecord)).length
        = (xs.map (fun it => L.hdr + it.key.length + 1)).sum := by
      rw [encodeAll_length, hsum]
    simp only [← hb1, hoff] at hdec
    obtain ⟨d1, d2, d3, d4, d5⟩ := hdec
    refine ⟨d1, d5, ?_, d3, d4⟩
    rw [d2]
    exact scanPos_shift it.pos b (hpos it hmem) hb

/-- Witness of C11: two items, one live and one tombstone, collected into a
buffer of 512 bytes under the sample layout and scanned with bucket 5. -/
theorem collect_items_scan_roundtrip_witness :
    beansdbLayout.hdr + 256 ^ beansdbLayout.kw ≤ (⟨512, 0, List.replicate 512 0⟩ : Param).size ∧
    (∀ it ∈ [(⟨[97], 2565, 1, 7⟩ : KeyedItem), ⟨[98, 99], 5125, -3, 8⟩],
      ∀ x ∈ it.key, x ≠ 0) ∧
    (∀ it ∈ [(⟨[97], 2565, 1, 7⟩ : KeyedItem), ⟨[98, 99], 5125, -3, 8⟩],
      (itemRecord it).Fits beansdbLayout) ∧
    (∀ it ∈ [(⟨[97], 2565, 1, 7⟩ : KeyedItem), ⟨[98, 99], 5125, -3, 8⟩], it.pos < 2 ^ 32) ∧
    ∃ p1 s, collectAll beansdbLayout [(⟨[97], 2565, 1, 7⟩ : KeyedItem), ⟨[98, 99], 5125, -3, 8⟩]
        ⟨512, 0, List.replicate 512 0⟩ = some p1 ∧
      p1.curr = 25 ∧
      scanHintFile beansdbLayout (fun _ => none) ((5 : Nat) : Int)
        (some (p1.buf.take p1.curr)) = some s ∧
      s.truncated = none ∧
      s.calls = [IndexCall.add [97] 2565 7 1, IndexCall.remove [98, 99]] := by
  refine ⟨by decide, by decide, by decide, by decide, ?_⟩
  obtain ⟨p1, s, h1, h2, _, h4, h5, h6, _, _⟩ :=
    collect_items_scan_roundtrip beansdbLayout
      [(⟨[97], 2565, 1, 7⟩ : KeyedItem), ⟨[98, 99], 5125, -3, 8⟩]
      ⟨512, 0, List.replicate 512 0⟩ (by decide) (List.length_replicate 512 0) rfl
      (by decide) (by decide)
      (by decide) 5 (by decide) (fun _ => none)
  exact ⟨p1, s, h1, by rw [h2]; rfl, h4, h5, by rw [h6]; decide⟩

end Beansdb
